import Mathlib

/-!
A shallow embedding of the out-of-SSA live-range analysis and coalescing
core (`tree-ssa-live.c`): the union-find variable partition map, partition
compaction, the live-on-entry data-flow solver, the tree-partition
associator (TPA), the coalesce list and the coalescer, together with
theorems about them.

Conventions of the embedding:
* C ints that can hold the sentinels `NO_PARTITION` / `TPA_NONE` (both -1)
  are rendered as `Option Nat`, with `none` for the sentinel.
* Arrays are rendered as `List`s indexed by position; bitmaps and sbitmaps
  as `Finset Nat`.
* `gcc_assert` failure (a fatal abort) is rendered by returning `none`
  from an `Option`-valued function.
* Mutation is rendered by explicit state passing.  Per-declaration
  annotations (a global side table in the C code) travel inside the
  `VarMap` state record.
-/

namespace TreeSSALive

/-- Tree codes of the declarations this pass distinguishes
(`VAR_DECL`, `PARM_DECL`, `RESULT_DECL`). -/
inductive DKind where
  | var_decl
  | parm_decl
  | result_decl
deriving DecidableEq, Repr

/-- A declaration node: the fields of a `tree` decl that the pass reads.
`uid` keys the per-declaration annotation table. -/
structure Decl where
  uid : Nat
  kind : DKind
  vol : Bool
  reg : Bool
  ignored : Bool
  rtl_set : Bool
  ty : Nat
deriving DecidableEq, Repr

/-- The trees flowing through the pass: an `SSA_NAME` (with its version
number, underlying declaration, volatility flag and type), a bare
declaration, or an invariant constant (a phi argument need not be an
SSA name). -/
inductive Tree where
  | ssa (version : Nat) (dvar : Decl) (vol : Bool) (ty : Nat)
  | dc (d : Decl)
  | cst (n : Nat)
deriving DecidableEq, Repr

namespace Tree

/-- `TREE_CODE t == SSA_NAME`. -/
def isSSA : Tree → Bool
  | .ssa _ _ _ _ => true
  | _ => false

/-- `SSA_NAME_VERSION`. -/
def version : Tree → Nat
  | .ssa v _ _ _ => v
  | _ => 0

/-- `DECL_P`. -/
def isDecl : Tree → Bool
  | .dc _ => true
  | _ => false

/-- `TREE_THIS_VOLATILE`. -/
def volFlag : Tree → Bool
  | .ssa _ _ v _ => v
  | .dc d => d.vol
  | .cst _ => false

/-- Decl uid used to key the annotation table (`var_ann`). -/
def uid : Tree → Nat
  | .ssa _ d _ _ => d.uid
  | .dc d => d.uid
  | .cst _ => 0

/-- `TREE_TYPE`. -/
def ty : Tree → Nat
  | .ssa _ _ _ t => t
  | .dc d => d.ty
  | .cst _ => 0

/-- `DECL_REGISTER` (false off declarations). -/
def regFlag : Tree → Bool
  | .dc d => d.reg
  | _ => false

/-- `DECL_IGNORED_P` (false off declarations). -/
def ignoredFlag : Tree → Bool
  | .dc d => d.ignored
  | _ => false

/-- `DECL_RTL_SET_P` (false off declarations). -/
def rtlSetFlag : Tree → Bool
  | .dc d => d.rtl_set
  | _ => false

/-- `TREE_CODE t == PARM_DECL`. -/
def isParm : Tree → Bool
  | .dc d => d.kind = .parm_decl
  | _ => false

/-- `TREE_CODE t == RESULT_DECL`. -/
def isResult : Tree → Bool
  | .dc d => d.kind = .result_decl
  | _ => false

/-- `SSA_NAME_VAR` (the underlying declaration of an SSA name). -/
def ssaVar : Tree → Option Decl
  | .ssa _ d _ _ => some d
  | _ => none

end Tree

/-- Per-declaration annotation slots read and written by the pass:
`out_of_ssa_tag`, `VAR_ANN_PARTITION`, `root_var_processed` and
`VAR_ANN_ROOT_INDEX`. -/
structure VarAnn where
  out_of_ssa_tag : Bool
  part : Nat
  root_var_processed : Bool
  root_index : Nat
deriving DecidableEq, Repr

/-- The all-clear annotation a declaration starts with. -/
def VarAnn.clear : VarAnn := ⟨false, 0, false, 0⟩

/-- Point update of a function-backed table. -/
def updf {α : Type} (f : Nat → α) (i : Nat) (v : α) : Nat → α :=
  fun j => if j = i then v else f j

/-- Modelled from the spec: the union-find partition structure
(`partition_new` / `partition_find` / `partition_union` live outside this
file).  It is kept in normalized form: entry `i` of the list is the
canonical element of `i`'s class. -/
def partition_find (uf : List Nat) (x : Nat) : Nat :=
  uf.getD x x

/-- Modelled from the spec: `partition_new size` makes `size` singleton
classes. -/
def partition_new (size : Nat) : List Nat :=
  (List.range size).map id

/-- Modelled from the spec: `partition_union` joins the classes of its two
arguments and returns the canonical element of the joined class (the
first argument's canonical element when the classes differ). -/
def partition_union (uf : List Nat) (e1 e2 : Nat) : List Nat × Nat :=
  let c1 := partition_find uf e1
  let c2 := partition_find uf e2
  if c1 = c2 then (uf, c1)
  else (uf.map (fun r => if r = c2 then c1 else r), c1)

/-- The variable partition map `struct _var_map`, with the per-declaration
annotation table carried alongside (the C code keeps it as global side
data on the declarations). -/
structure VarMap where
  var_partition : List Nat
  partition_to_var : List (Option Tree)
  partition_to_compact : Option (List (Option Nat))
  compact_to_partition : Option (List Nat)
  num_partitions : Nat
  partition_size : Nat
  anns : Nat → VarAnn

/-- `init_var_map size`: singleton partitions, empty
`partition_to_var`, no compaction tables. -/
def init_var_map (size : Nat) : VarMap where
  var_partition := partition_new size
  partition_to_var := List.replicate size none
  partition_to_compact := none
  compact_to_partition := none
  num_partitions := size
  partition_size := size
  anns := fun _ => VarAnn.clear

/-- `num_var_partitions`.  Modelled from the spec: the accessor lives in
the header. -/
def num_var_partitions (m : VarMap) : Nat := m.num_partitions

/-- Modelled from the spec: header accessor `var_to_partition`.  An SSA
name resolves through the union-find (then through
`partition_to_compact` when present); a real declaration resolves
through its annotation when its `out_of_ssa_tag` is set, and to
`NO_PARTITION` otherwise. -/
def var_to_partition (m : VarMap) (t : Tree) : Option Nat :=
  if t.isSSA then
    let p := partition_find m.var_partition t.version
    match m.partition_to_compact with
    | some ptc => ptc.getD p none
    | none => some p
  else
    let a := m.anns t.uid
    if a.out_of_ssa_tag then some a.part else none

/-- Modelled from the spec: header accessor `partition_to_var`.  Index `i`
goes through `compact_to_partition` when present, is normalized by the
union-find, and selects the representative tree. -/
def partition_to_var (m : VarMap) (i : Nat) : Option Tree :=
  let i' := match m.compact_to_partition with
            | some ctp => ctp.getD i 0
            | none => i
  m.partition_to_var.getD (partition_find m.var_partition i') none

/-- `change_partition_var map var part` (`tree-ssa-live.c`): asserts `var`
is not an SSA name, sets the declaration's `out_of_ssa_tag` and
partition annotation, and, when the map is compacted, stores `var` as
the representative of the raw partition behind compacted index
`part`. -/
def change_partition_var (m : VarMap) (var : Tree) (part : Nat) :
    Option VarMap :=
  if var.isSSA then none
  else
    let a := m.anns var.uid
    let m1 := { m with
      anns := updf m.anns var.uid
        { a with out_of_ssa_tag := true, part := part } }
    match m1.compact_to_partition with
    | some ctp =>
        some { m1 with
          partition_to_var :=
            m1.partition_to_var.set (ctp.getD part 0) (some var) }
    | none => some m1

/-- Helper for `var_union`: resolve one operand to a raw partition index,
returning also the real declaration when the operand is not an SSA
name.  Mirrors the two symmetric blocks at the top of `var_union`. -/
def var_union_resolve (m : VarMap) (v : Tree) : Option Nat :=
  if v.isSSA then
    some (partition_find m.var_partition v.version)
  else
    match var_to_partition m v with
    | none => none
    | some p =>
        match m.compact_to_partition with
        | some ctp => if p < ctp.length then some (ctp.getD p 0) else none
        | none => some p

/-- `var_union map var1 var2` (`tree-ssa-live.c`): resolves both operands
to raw partitions (asserting neither is `NO_PARTITION`), selects
`root_var`/`other_var` among real-declaration operands -- preferring a
user-visible declaration over a `DECL_IGNORED_P` one -- unions the two
partitions, maps the result through `partition_to_compact` when
present, and applies `change_partition_var` first to `root_var` and
then to `other_var`.  Returns the updated map and the (possibly
`NO_PARTITION`) result partition; `none` renders an assertion
failure.  `var_union_roots` is the `root_var`/`other_var` selection:
if either operand is a real declaration it becomes `root_var`, and
when both are real the one that is not `DECL_IGNORED_P` is
preferred. -/
def var_union_roots (var1 var2 : Tree) : Option Tree × Option Tree :=
  let root0 : Option Tree := if var1.isSSA then none else some var1
  if var2.isSSA then (root0, none)
  else
    match root0 with
    | none => (some var2, none)
    | some r =>
        if r.isDecl && r.ignoredFlag then (some var2, some r)
        else (some r, some var2)

/-- The tail of `var_union` past partition resolution: the union itself,
compaction of the result index, and the two `change_partition_var`
calls (`root_var` first, `other_var` second). -/
def var_union_core (m : VarMap) (p1 p2 : Nat)
    (root_other : Option Tree × Option Tree) :
    Option (VarMap × Option Nat) :=
  let ufr :=
    if p1 = p2 then (m.var_partition, p1)
    else partition_union m.var_partition p1 p2
  let m1 := { m with var_partition := ufr.1 }
  let p3 : Option Nat :=
    match m1.partition_to_compact with
    | some ptc => ptc.getD ufr.2 none
    | none => some ufr.2
  match root_other.1 with
  | none => some (m1, p3)
  | some rv =>
      match p3 with
      | none => none
      | some p3v =>
          match change_partition_var m1 rv p3v with
          | none => none
          | some m2 =>
              match root_other.2 with
              | none => some (m2, some p3v)
              | some ov =>
                  match change_partition_var m2 ov p3v with
                  | none => none
                  | some m3 => some (m3, some p3v)

def var_union (m : VarMap) (var1 var2 : Tree) :
    Option (VarMap × Option Nat) :=
  match var_union_resolve m var1, var_union_resolve m var2 with
  | some p1, some p2 =>
      var_union_core m p1 p2 (var_union_roots var1 var2)
  | _, _ => none

/-! ## Tree partition associator (TPA) -/

/-- `struct tree_partition_associator_d`.  Class labels (`trees`) are
either root-variable trees (`root_var_init`) or type nodes
(`type_var_init`, rendered `Sum.inr`).  `TPA_NONE` entries are
`none`. -/
structure Tpa where
  num_trees : Nat
  uncompressed_num : Option Nat
  next_partition : List (Option Nat)
  partition_to_tree_map : List (Option Nat)
  trees : List (Tree ⊕ Nat)
  first_partition : List (Option Nat)
deriving DecidableEq, Repr

/-- `tpa_init map`: `NULL` (`none`) for an empty map, else empty class
table with `next_partition` and `partition_to_tree_map` memset to
`TPA_NONE`. -/
def tpa_init (m : VarMap) : Option Tpa :=
  let n := num_var_partitions m
  if n = 0 then none
  else some ⟨0, none, List.replicate n none, List.replicate n none, [], []⟩

/-- Modelled from the spec: header accessor `tpa_num_trees`. -/
def tpa_num_trees (t : Tpa) : Nat := t.num_trees

/-- Modelled from the spec: header accessor `tpa_next_partition`. -/
def tpa_next_partition (t : Tpa) (i : Nat) : Option Nat :=
  t.next_partition.getD i none

/-- Modelled from the spec: header accessor `tpa_first_partition`. -/
def tpa_first_partition (t : Tpa) (ti : Nat) : Option Nat :=
  t.first_partition.getD ti none

/-- Modelled from the spec: header accessor `tpa_find_tree`
(`partition_to_tree_map[p]`). -/
def tpa_find_tree (t : Tpa) (p : Nat) : Option Nat :=
  t.partition_to_tree_map.getD p none

/-- The chain walk of `tpa_remove_partition` when the partition is not the
first of its class: find the predecessor whose `next` is
`partition_index` and splice it out.  The C `for` loop carries no
bound; the fuel argument covers (ill-formed) cyclic chains. -/
def tpa_remove_walk (pidx : Nat) : Tpa → Option Nat → Nat → Tpa
  | t, none, _ => t
  | t, some _, 0 => t
  | t, some i, fuel+1 =>
      if tpa_next_partition t i = some pidx then
        { t with next_partition :=
            t.next_partition.set i (tpa_next_partition t pidx) }
      else tpa_remove_walk pidx t (tpa_next_partition t i) fuel

/-- `tpa_remove_partition tpa tree_index partition_index`
(`tree-ssa-live.c`). -/
def tpa_remove_partition (t : Tpa) (tree_index partition_index : Nat) :
    Tpa :=
  if tpa_first_partition t tree_index = some partition_index then
    { t with first_partition :=
        (t.first_partition.set tree_index
          (tpa_next_partition t partition_index)) }
  else
    tpa_remove_walk partition_index t (tpa_first_partition t tree_index)
      t.next_partition.length

/-- The members of class `ti`, read off by chasing `first_partition` /
`next_partition` with fuel. -/
def tpa_chase (next : List (Option Nat)) : Nat → Option Nat → List Nat
  | _, none => []
  | 0, some p => [p]
  | fuel+1, some p => p :: tpa_chase next fuel (next.getD p none)

/-- All partitions listed in class `ti` of the TPA. -/
def tpa_class_members (t : Tpa) (ti : Nat) : List Nat :=
  tpa_chase t.next_partition t.next_partition.length
    (tpa_first_partition t ti)

/-- An `Option`-valued left fold: `none` aborts the loop (an assertion
failure inside the body). -/
def opt_fold {σ : Type} (f : σ → Nat → Option σ) : σ → List Nat → Option σ
  | s, [] => some s
  | s, x :: xs =>
      match f s x with
      | none => none
      | some s' => opt_fold f s' xs

/-- `SSA_NAME_VAR` stripping at the start of `root_var_init`'s loop body:
an SSA name is replaced by its underlying declaration. -/
def root_var_strip : Tree → Tree
  | .ssa _ d _ _ => .dc d
  | u => u

/-- One iteration of `root_var_init`'s partition loop: skip `NULL`
representatives, assert the partition exists, skip coalesced
partitions already seen, then thread the partition onto its root
variable's class (creating the class on first encounter, recorded in
the declaration's annotation). -/
def root_var_step (m : VarMap) (mrv : Tpa × Finset Nat) (x : Nat) :
    Option (VarMap × Tpa × Finset Nat) :=
  let (rv, seen) := mrv
  match partition_to_var m x with
  | none => some (m, rv, seen)
  | some t =>
      match var_to_partition m t with
      | none => none
      | some p =>
          if p ∈ seen then some (m, rv, seen)
          else
            let seen' := insert p seen
            let t' := root_var_strip t
            let a := m.anns t'.uid
            if a.root_var_processed then
              some (m,
                { rv with
                  next_partition := rv.next_partition.set p
                    (tpa_first_partition rv a.root_index),
                  first_partition :=
                    rv.first_partition.set a.root_index (some p),
                  partition_to_tree_map :=
                    rv.partition_to_tree_map.set p (some a.root_index) },
                seen')
            else
              some ({ m with anns := (updf m.anns t'.uid
                  { a with root_var_processed := true,
                           root_index := rv.num_trees }) },
                { rv with
                  num_trees := rv.num_trees + 1,
                  trees := rv.trees ++ [Sum.inl t'],
                  first_partition := rv.first_partition ++ [some p],
                  partition_to_tree_map :=
                    rv.partition_to_tree_map.set p (some rv.num_trees) },
                seen')

/-- The fold of `root_var_step` over partitions from high to low,
threading the map (whose annotations the step mutates). -/
def root_var_loop (s : VarMap × Tpa × Finset Nat) : List Nat →
    Option (VarMap × Tpa × Finset Nat)
  | [] => some s
  | x :: xs =>
      match root_var_step s.1 s.2 x with
      | none => none
      | some s' => root_var_loop s' xs

/-- The trailing loop of `root_var_init`: reset each class tree's
`root_var_processed` flag. -/
def root_var_reset (m : VarMap) (rv : Tpa) : VarMap :=
  (List.range rv.num_trees).foldl (fun acc x =>
    match rv.trees.getD x (Sum.inr 0) with
    | Sum.inl t =>
        let a := acc.anns t.uid
        { acc with anns := (updf acc.anns t.uid
            { a with root_var_processed := false }) }
    | Sum.inr _ => acc) m

/-- `root_var_init map` (`tree-ssa-live.c`): groups partitions by root
variable, iterating from the highest partition to the lowest.
Returns the TPA (`none` inside for a `NULL` result) and the map with
its annotation side effects. -/
def root_var_init (m : VarMap) : Option (Option Tpa × VarMap) :=
  match tpa_init m with
  | none => some (none, m)
  | some rv0 =>
      match root_var_loop (m, rv0, ∅)
          (List.range (num_var_partitions m)).reverse with
      | none => none
      | some (m', rv, _) => some (some rv, root_var_reset m' rv)

/-- The coalescing exclusion filter of `type_var_init`
(`tree-ssa-live.c` lines 1004-1013): volatiles, function results,
parameters, and declarations that are registers, have a non-ignored
name, or already have assigned storage. -/
def type_var_disallowed (t : Tree) : Bool :=
  t.volFlag || t.isResult || t.isParm ||
    (t.isDecl && (t.regFlag || !t.ignoredFlag || t.rtlSetFlag))

/-- One iteration of `type_var_init`'s partition loop: apply the
exclusion filter, assert the partition exists, skip already-seen
partitions, then thread the partition onto its type's class (pushing
a new class when the type is first seen). -/
def type_var_step (m : VarMap) (ts : Tpa × Finset Nat) (x : Nat) :
    Option (Tpa × Finset Nat) :=
  let (tv, seen) := ts
  match partition_to_var m x with
  | none => some ts
  | some t =>
      if type_var_disallowed t then some ts
      else
        match var_to_partition m t with
        | none => none
        | some p =>
            if p ∈ seen then some (tv, seen)
            else
              let seen' := insert p seen
              let ty := t.ty
              match (List.range tv.num_trees).find?
                  (fun y => tv.trees.getD y (Sum.inr 0) = Sum.inr ty) with
              | none =>
                  some ({ tv with
                    num_trees := tv.num_trees + 1,
                    trees := tv.trees ++ [Sum.inr ty],
                    first_partition := tv.first_partition ++ [some p],
                    partition_to_tree_map :=
                      tv.partition_to_tree_map.set p (some tv.num_trees) },
                    seen')
              | some y =>
                  some ({ tv with
                    next_partition :=
                      tv.next_partition.set p (tpa_first_partition tv y),
                    first_partition := tv.first_partition.set y (some p),
                    partition_to_tree_map :=
                      tv.partition_to_tree_map.set p (some y) },
                    seen')

/-- `type_var_init map` (`tree-ssa-live.c`): groups partitions by the
representative variable's type, excluding partitions whose
representative must not be coalesced. -/
def type_var_init (m : VarMap) : Option Tpa :=
  match tpa_init m with
  | none => none
  | some tv0 =>
      match opt_fold (type_var_step m) (tv0, ∅)
          (List.range (num_var_partitions m)).reverse with
      | none => none
      | some (tv, _) => some tv

/-! ## Partition map compaction -/

/-- One iteration of `compact_var_map`'s reference scan: partition `x`'s
canonical element is recorded as used (and counted) when it has a
representative and, under `VARMAP_NO_SINGLE_DEFS`, its root-variable
class has more than one member.  Out-of-range root lookups (C reads
behind a `TPA_NONE` index) abort. -/
def compact_scan_step (m : VarMap) (rv : Option Tpa) (s : Finset Nat × Nat)
    (x : Nat) : Option (Finset Nat × Nat) :=
  let (used, count) := s
  let tmp := partition_find m.var_partition x
  if tmp ∉ used ∧ m.partition_to_var.getD tmp none ≠ none then
    match rv with
    | some rvt =>
        match tpa_find_tree rvt tmp with
        | none => none
        | some root =>
            match tpa_first_partition rvt root with
            | none => none
            | some root_i =>
                if tpa_next_partition rvt root_i = none then
                  some (used, count)
                else
                  some (insert tmp used, count + 1)
    | none => some (insert tmp used, count + 1)
  else
    some (used, count)

/-- The reference scan of `compact_var_map` over all raw partitions. -/
def compact_scan (m : VarMap) (rv : Option Tpa) :
    Option (Finset Nat × Nat) :=
  opt_fold (compact_scan_step m rv) (∅, 0) (List.range m.partition_size)

/-- One iteration of `compact_var_map`'s table-building loop over the
used bits (from bit 1 up): record the two table entries for `x`, and
re-seat a non-SSA representative with `change_partition_var` (whose
read of `compact_to_partition[count]` sees the entry just written). -/
def compact_build_step (s : List (Option Nat) × VarMap) (x : Nat) :
    Option (List (Option Nat) × VarMap) :=
  let (p2c, m) := s
  let count := (m.compact_to_partition.getD []).length
  let p2c' := p2c.set x (some count)
  let m' := { m with compact_to_partition :=
      (some (m.compact_to_partition.getD [] ++ [x])) }
  match m'.partition_to_var.getD x none with
  | none => none
  | some var =>
      if var.isSSA then some (p2c', m')
      else
        match change_partition_var m' var count with
        | none => none
        | some m'' => some (p2c', m'')

/-- `compact_var_map map flags` (`tree-ssa-live.c`): drop any previous
tables, rebuild the used-partition set (under
`VARMAP_NO_SINGLE_DEFS`, `flags = true`, excluding single-member
root-variable classes via a `root_var_init`), and when not all
partitions survive, build the dense renumbering tables in ascending
used order starting at bit 1. -/
def compact_reset (m0 : VarMap) : VarMap :=
  { m0 with
    partition_to_compact := none
    compact_to_partition := none
    num_partitions := m0.partition_size }

/-- Allocation (and `0xff` memset) of the fresh `partition_to_compact`
array inside `compact_var_map`. -/
def compact_alloc (m : VarMap) (limit : Nat) : VarMap :=
  { m with partition_to_compact := some (List.replicate limit none) }

/-- The tail of `compact_var_map` after the reference scan: when not
every partition survived, walk the used bits from 1 up in ascending
order building both tables (dropping them again when everything
survived), and store the final partition count. -/
def compact_finish (m3 : VarMap) (limit : Nat) (used : Finset Nat)
    (count : Nat) : Option VarMap :=
  if count ≠ limit then
    match opt_fold compact_build_step (List.replicate limit none,
        { m3 with compact_to_partition := some [] })
        ((List.range limit).filter (fun x => decide (x ∈ used ∧ 1 ≤ x))) with
    | none => none
    | some (p2c, m5) =>
        some { m5 with
          partition_to_compact := some p2c
          num_partitions := (m5.compact_to_partition.getD []).length }
  else
    some { m3 with
      partition_to_compact := none
      num_partitions := count }

def compact_var_map (m0 : VarMap) (noSingleDefs : Bool) : Option VarMap :=
  match (if noSingleDefs then root_var_init (compact_reset m0)
         else some (none, compact_reset m0)) with
  | none => none
  | some (rv, m2) =>
      match compact_scan (compact_alloc m2 m0.partition_size) rv with
      | none => none
      | some (used, count) =>
          compact_finish (compact_alloc m2 m0.partition_size)
            m0.partition_size used count

/-- Two SSA versions lie in the same partition: their union-find
canonical elements agree. -/
def same_partition (m : VarMap) (v1 v2 : Nat) : Prop :=
  partition_find m.var_partition v1 = partition_find m.var_partition v2

/-! ## Liveness -/

/-- The source block of a CFG edge: `ENTRY_BLOCK_PTR` or a body block
given by its index. -/
inductive Src where
  | entry
  | blk (n : Nat)
deriving DecidableEq, Repr

/-- A phi argument with the edge it arrives on (`PHI_ARG_DEF` /
`PHI_ARG_EDGE`). -/
structure PhiArg where
  arg : Tree
  src : Src
deriving DecidableEq, Repr

/-- A phi node: result and arguments. -/
structure Phi where
  result : Tree
  args : List PhiArg
deriving DecidableEq, Repr

/-- A non-phi statement, reduced to its real `SSA_OP_USE` and
`SSA_OP_DEF` operands in operand order. -/
structure Stmt where
  uses : List Tree
  defs : List Tree
deriving DecidableEq, Repr

/-- A basic block: its phi nodes (in chain order), statements (in
program order) and predecessor edge sources. -/
structure Block where
  phis : List Phi
  stmts : List Stmt
  preds : List Src
deriving DecidableEq, Repr

/-- A procedure body: blocks indexed by position (`bb->index`), and the
defining statement of each SSA version — `none` renders a `NULL`
`SSA_NAME_DEF_STMT`, `some none` a statement with no block
(`bb_for_stmt` `NULL`), `some (some b)` a statement in block `b`
(statements never live in the entry block). -/
structure Program where
  blocks : List Block
  defstmt : Nat → Option (Option Nat)

/-- `BASIC_BLOCK b` (an out-of-range index yields an inert block; the C
code would read garbage there). -/
def wl_block (P : Program) (b : Nat) : Block :=
  P.blocks.getD b ⟨[], [], []⟩

/-- Modelled from the spec: `phi_ssa_name_p` — a phi argument is a real
SSA reference (not an invariant constant). -/
def phi_ssa_name (t : Tree) : Bool := t.isSSA

/-- The live-range information object (`struct tree_live_info_d`)
restricted to what the claims need: per-partition live-on-entry block
sets and the global bitmap. -/
structure LiveInfo where
  livein : Nat → Finset Nat
  global : Finset Nat

/-- `new_tree_live_info`: all bitmaps empty. -/
def new_tree_live_info : LiveInfo where
  livein := fun _ => ∅
  global := ∅

/-- `set_if_valid map vec var` (`tree-ssa-live.c`). -/
def set_if_valid (m : VarMap) (vec : Finset Nat) (t : Tree) : Finset Nat :=
  match var_to_partition m t with
  | some p => insert p vec
  | none => vec

/-- `add_livein_if_notdef live def_vec var bb` (`tree-ssa-live.c`): when
`var` has a partition, `bb` is not the entry block, and the partition
is not in `def_vec`, set the live-on-entry bit of `bb` for the
partition and the partition's global bit. -/
def add_livein_if_notdef (m : VarMap) (live : LiveInfo)
    (def_vec : Finset Nat) (t : Tree) (bb : Src) : LiveInfo :=
  match var_to_partition m t with
  | none => live
  | some p =>
      match bb with
      | .entry => live
      | .blk b =>
          if p ∈ def_vec then live
          else
            { livein := updf live.livein p (insert b (live.livein p)),
              global := insert p live.global }

/-- The phi-argument test of `calculate_live_on_entry`:
`!stmt || e->src != bb_for_stmt (stmt)` — the argument has no
defining statement, or the edge source is a different block from the
one holding the definition (the entry block and a blockless statement
compare unequal to everything). -/
def phi_arg_live_cond (P : Program) (v : Nat) (s : Src) : Bool :=
  match P.defstmt v with
  | none => true
  | some dbb =>
      match s, dbb with
      | .blk n, some db => decide (n ≠ db)
      | _, _ => true

/-- One phi argument of the initial scan: skip non-SSA arguments
(`phi_ssa_name_p`), apply the def-elsewhere test, and mark the edge
source live-on-entry against the given `saw_def`. -/
def scan_phi_arg_step (P : Program) (m : VarMap) (sd : Finset Nat)
    (lv : LiveInfo) (a : PhiArg) : LiveInfo :=
  if phi_ssa_name a.arg = false then lv
  else if phi_arg_live_cond P a.arg.version a.src then
    add_livein_if_notdef m lv sd a.arg a.src
  else lv

/-- The first phi loop of the initial scan: all arguments of all phi
nodes, each tested against the same `saw_def` `sd`. -/
def scan_phi_args (P : Program) (m : VarMap) (sd : Finset Nat)
    (live : LiveInfo) (phis : List Phi) : LiveInfo :=
  phis.foldl (fun lv phi => phi.args.foldl (scan_phi_arg_step P m sd) lv)
    live

/-- The second phi loop of the initial scan: record every phi result in
`saw_def` — only after all phi arguments were processed. -/
def scan_phi_results (m : VarMap) (sd : Finset Nat) (phis : List Phi) :
    Finset Nat :=
  phis.foldl (fun sd phi => set_if_valid m sd phi.result) sd

/-- One non-phi statement of the initial scan: uses first (marked
live-on-entry to this block unless already in `saw_def`), then defs
into `saw_def`. -/
def scan_stmt_step (m : VarMap) (bIdx : Nat) (ls : LiveInfo × Finset Nat)
    (st : Stmt) : LiveInfo × Finset Nat :=
  let ls1 := st.uses.foldl (fun (acc : LiveInfo × Finset Nat) op =>
    (add_livein_if_notdef m acc.1 acc.2 op (.blk bIdx), acc.2)) ls
  (ls1.1, st.defs.foldl (fun sd op => set_if_valid m sd op) ls1.2)

/-- The per-block body of `calculate_live_on_entry`'s initial scan:
clear `saw_def`; test every phi argument against that cleared
`saw_def` (phi results are deliberately not yet recorded); then record
all phi results in `saw_def`; then walk the statements in order,
uses before defs. -/
def scan_block (P : Program) (m : VarMap) (live : LiveInfo) (bIdx : Nat)
    (b : Block) : LiveInfo :=
  (b.stmts.foldl (scan_stmt_step m bIdx)
    (scan_phi_args P m ∅ live b.phis, scan_phi_results m ∅ b.phis)).1

/-- The initial scan over all blocks (`FOR_EACH_BB`). -/
def scan_all (P : Program) (m : VarMap) (live : LiveInfo) : LiveInfo :=
  P.blocks.enum.foldl (fun lv ib => scan_block P m lv ib.1 ib.2) live

/-- The `def_bb` computation at the top of `live_worklist`: the block of
the defining statement of the partition's representative (`NULL`,
i.e. `none`, when there is no defining statement or no block; a
non-SSA representative keeps the `NULL` initialization). -/
def wl_def_bb (P : Program) (m : VarMap) (i : Nat) : Option Nat :=
  match partition_to_var m i with
  | some t =>
      if t.isSSA then
        match P.defstmt t.version with
        | some dbb => dbb
        | none => none
      else none
  | none => none

/-- One predecessor edge of the pop step in `live_worklist`: skip the
entry block and the defining block; otherwise set the live-on-entry
bit and push the source when the bit was clear. -/
def wl_preds_step (def_bb : Option Nat) (acc : Finset Nat × List Nat)
    (e : Src) : Finset Nat × List Nat :=
  match e with
  | .entry => acc
  | .blk s =>
      if some s = def_bb then acc
      else if s ∈ acc.1 then acc
      else (insert s acc.1, s :: acc.2)

/-- Processing all predecessor edges of a popped block. -/
def wl_process (def_bb : Option Nat) (ps : List Src) (lv : Finset Nat)
    (st : List Nat) : Finset Nat × List Nat :=
  ps.foldl (wl_preds_step def_bb) (lv, st)

/-- All block indices that occur as a predecessor edge source in the
program: every bit the worklist can newly set lies in here. -/
def wl_universe (P : Program) : Finset Nat :=
  P.blocks.foldl (fun s b => b.preds.foldl (fun s e =>
    match e with
    | .entry => s
    | .blk n => insert n s) s) ∅

/-- The termination measure of the worklist loop: unset universe bits
plus stack depth.  Used to size the loop's fuel. -/
def wl_measure (u lv : Finset Nat) (st : List Nat) : Nat :=
  (u \ lv).card + st.length

/-- The pop-and-process loop of `live_worklist`.  The C loop runs until
the stack empties; the fuel argument (instantiated with one more than
the measure, which strictly decreases each iteration) makes the
recursion structural. -/
def wl_loop (P : Program) (def_bb : Option Nat) :
    Nat → Finset Nat → List Nat → Finset Nat
  | 0, lv, _ => lv
  | fuel + 1, lv, stack =>
      match stack with
      | [] => lv
      | b :: rest =>
          let ls := wl_process def_bb (wl_block P b).preds lv rest
          wl_loop P def_bb fuel ls.1 ls.2

/-- `live_worklist live stack i` (`tree-ssa-live.c`): seed the stack
with every block currently live-on-entry for partition `i`
(`EXECUTE_IF_SET_IN_BITMAP` pushes in ascending order, so the largest
index is popped first) and run the pop-and-process loop. -/
def live_worklist (P : Program) (m : VarMap) (live : LiveInfo) (i : Nat) :
    LiveInfo :=
  let def_bb := wl_def_bb P m i
  let seed := ((List.range P.blocks.length).filter
    (fun b => decide (b ∈ live.livein i))).foldl (fun st b => b :: st) []
  { live with livein := (updf live.livein i
      (wl_loop P def_bb
        (wl_measure (wl_universe P) (live.livein i) seed + 1)
        (live.livein i) seed)) }

/-- `calculate_live_on_entry map` (`tree-ssa-live.c`): the initial
use/def scan of every block followed by `live_worklist` for every
partition in the global bitmap (a bitmap over the partition range).
The `ENABLE_CHECKING` verification block only asserts and is not
modelled. -/
def calculate_live_on_entry (P : Program) (m : VarMap) : LiveInfo :=
  let live1 := scan_all P m new_tree_live_info
  ((List.range (num_var_partitions m)).filter
    (fun i => decide (i ∈ live1.global))).foldl
    (fun lv i => live_worklist P m lv i) live1

/-! ## Coalesce list -/

/-- A coalesce pair node `struct partition_pair_d` (without the intrusive
`next` pointer: chains are rendered as `List`s). -/
structure PartitionPair where
  first_partition : Nat
  second_partition : Nat
  cost : Int
deriving DecidableEq, Repr

/-- `struct coalesce_list_d`: one chain per first partition while in add
mode; chain 0 holds everything once sorted. -/
structure CoalesceList where
  add_mode : Bool
  list : List (List PartitionPair)
deriving DecidableEq, Repr

/-- `create_coalesce_list map`. -/
def create_coalesce_list (m : VarMap) : CoalesceList where
  add_mode := true
  list := List.replicate (num_var_partitions m) []

/-- The chain update of `find_partition_pair (cl, p1, p2, true)` followed
by `node->cost += value` (`add_coalesce`'s only use of the returned
node): the chain is kept sorted by `second_partition`; a missing pair
is inserted at its sorted position with cost 0 before the cost is
accumulated.  `p1 < p2` is already normalized by the caller. -/
def find_pair_add_cost (p1 p2 : Nat) (value : Int) :
    List PartitionPair → List PartitionPair
  | [] => [⟨p1, p2, value⟩]
  | nd :: rest =>
      if nd.second_partition = p2 then
        { nd with cost := nd.cost + value } :: rest
      else if p2 < nd.second_partition then
        ⟨p1, p2, value⟩ :: nd :: rest
      else
        nd :: find_pair_add_cost p1 p2 value rest

/-- `add_coalesce cl p1 p2 value`: asserts add mode, silently drops a
reflexive pair, otherwise normalizes `p1 < p2` and accumulates the
cost into the (found or created) pair node. -/
def add_coalesce (cl : CoalesceList) (p1 p2 : Nat) (value : Int) :
    Option CoalesceList :=
  if !cl.add_mode then none
  else if p1 = p2 then some cl
  else
    let a := if p2 < p1 then p2 else p1
    let b := if p2 < p1 then p1 else p2
    some { cl with
      list := cl.list.set a (find_pair_add_cost a b value (cl.list.getD a [])) }

/-- `compare_pairs`: the `qsort` comparison, descending by cost. -/
def compare_pairs (x y : PartitionPair) : Int :=
  y.cost - x.cost

/-- The ordering `qsort` establishes with `compare_pairs`: earlier
elements compare `<= 0` against later ones. -/
def pair_order (x y : PartitionPair) : Prop :=
  compare_pairs x y ≤ 0

instance : DecidableRel pair_order := by
  intro x y
  unfold pair_order
  infer_instance

instance : IsTotal PartitionPair pair_order := by
  constructor
  intro a b
  unfold pair_order compare_pairs
  omega

instance : IsTrans PartitionPair pair_order := by
  constructor
  intro a b c
  unfold pair_order compare_pairs
  omega

/-- The hand-swapped two-element case of `sort_coalesce_list`: two pairs
in the wrong order are swapped; fewer than two are left alone. -/
def hand_swap_two : List PartitionPair → List PartitionPair
  | [a, b] => if a.cost < b.cost then [b, a] else [a, b]
  | c => c

/-- `sort_coalesce_list cl`: asserts add mode and leaves it, flattens the
per-partition chains into one chain (walking the slots in ascending
order, each chain prepended to the accumulated one), counts the
nodes, and sorts: more than two nodes go through `qsort` with
`compare_pairs` (modelled from the spec as a comparison sort by cost
descending), exactly two are hand-swapped when out of order.  The
result lives in chain 0. -/
def sort_coalesce_list (cl : CoalesceList) : Option CoalesceList :=
  if !cl.add_mode then none
  else
    let chain := cl.list.foldl (fun ch l => l ++ ch) []
    let num := chain.length
    let sorted :=
      if 2 < num then List.insertionSort pair_order chain
      else hand_swap_two chain
    some { add_mode := false,
           list := (List.replicate cl.list.length []).set 0 sorted }

/-- `pop_best_coalesce cl`: asserts sorted mode; returns the head pair of
chain 0 together with the shrunken list, or `none` in the first
component for `NO_BEST_COALESCE`. -/
def pop_best_coalesce (cl : CoalesceList) :
    Option (Option (Nat × Nat × Int) × CoalesceList) :=
  if cl.add_mode then none
  else
    match cl.list.getD 0 [] with
    | [] => some (none, cl)
    | nd :: rest =>
        some (some (nd.first_partition, nd.second_partition, nd.cost),
              { cl with list := cl.list.set 0 rest })

/-- Repeatedly apply `pop_best_coalesce` until it yields
`NO_BEST_COALESCE` (or would assert), collecting the popped
`(p1, p2, cost)` triples in order. -/
def pop_all (cl : CoalesceList) : List (Nat × Nat × Int) :=
  if cl.add_mode then []
  else
    match h : cl.list.getD 0 [] with
    | [] => []
    | nd :: rest =>
        (nd.first_partition, nd.second_partition, nd.cost) ::
          pop_all { cl with list := cl.list.set 0 rest }
termination_by (cl.list.getD 0 []).length
decreasing_by
  simp only [h]
  have hlt : 0 < cl.list.length := by
    rcases hc : cl.list with _ | ⟨x, t⟩
    · rw [hc] at h
      simp [List.getD] at h
    · simp
  have hset : (cl.list.set 0 rest)[0]? = some rest :=
    List.getElem?_set_self (by simpa using hlt)
  simp [List.getD, hset]

/-- All pair nodes anywhere in a coalesce list relate two distinct
partitions, the smaller one first. -/
def cl_pairs_ok (cl : CoalesceList) : Prop :=
  ∀ ch ∈ cl.list, ∀ nd ∈ ch, nd.first_partition < nd.second_partition

/-! ## Concrete instances used to evaluate the theorems -/

/-- A compiler-ignored variable declaration. -/
def cexDeclA : Decl := ⟨1, .var_decl, false, false, true, false, 0⟩

/-- A user-visible (not `DECL_IGNORED_P`) variable declaration. -/
def cexDeclB : Decl := ⟨2, .var_decl, false, false, false, false, 0⟩

def cexA : Tree := .dc cexDeclA

def cexB : Tree := .dc cexDeclB

/-- Annotations placing `cexA` in partition 0 and `cexB` in partition 1,
both already out of SSA. -/
def cexAnns : Nat → VarAnn := fun u =>
  if u = 1 then ⟨true, 0, false, 0⟩
  else if u = 2 then ⟨true, 1, false, 0⟩
  else VarAnn.clear

/-- A compacted two-partition map whose representatives are the two real
declarations `cexA` (partition 0) and `cexB` (partition 1). -/
def cexMap : VarMap where
  var_partition := [0, 1]
  partition_to_var := [some cexA, some cexB]
  partition_to_compact := some [some 0, some 1]
  compact_to_partition := some [0, 1]
  num_partitions := 2
  partition_size := 2
  anns := cexAnns

/-- The map produced by unioning `cexA` and `cexB`. -/
def cexMapU : VarMap :=
  match var_union cexMap cexA cexB with
  | some r => r.1
  | none => cexMap

/-- A three-pair coalesce list still in add mode. -/
def cexCl : CoalesceList where
  add_mode := true
  list := [[⟨0, 1, 1⟩, ⟨0, 2, 5⟩], [⟨1, 2, 3⟩]]

/-- `cexCl` after `sort_coalesce_list`. -/
def cexClS : CoalesceList :=
  match sort_coalesce_list cexCl with
  | some r => r
  | none => cexCl

def cexT1 : Tree := .ssa 1 cexDeclB false 0

def cexT3 : Tree := .ssa 3 cexDeclB false 0

/-- An uncompacted four-slot map: versions 1 and 2 share a partition with
canonical element 1, version 3 is alone, slots 0 and 2 are unused. -/
def cex4 : VarMap where
  var_partition := [0, 1, 1, 3]
  partition_to_var := [none, some cexT1, none, some cexT3]
  partition_to_compact := none
  compact_to_partition := none
  num_partitions := 4
  partition_size := 4
  anns := fun _ => VarAnn.clear

/-- `cex4` after plain compaction. -/
def cex4U : VarMap :=
  match compact_var_map cex4 false with
  | some r => r
  | none => cex4

/-- Pointwise containment of live info: every bitmap of the first is
contained in the corresponding bitmap of the second.  The scan and the
worklist only ever set bits. -/
def live_le (a b : LiveInfo) : Prop :=
  (∀ p, a.livein p ⊆ b.livein p) ∧ a.global ⊆ b.global

/-- Block `b` is closed in `lv` for a given defining block: every
non-entry predecessor is the defining block or has its bit in `lv`. -/
def wl_closed (P : Program) (def_bb : Option Nat) (b : Nat)
    (lv : Finset Nat) : Prop :=
  ∀ e ∈ (wl_block P b).preds, ∀ s, e = Src.blk s →
    some s = def_bb ∨ s ∈ lv

/-- Every partition with a live-on-entry bit also has its global bit:
`add_livein_if_notdef` always sets the two together. -/
def livein_global_inv (lv : LiveInfo) : Prop :=
  ∀ p, (lv.livein p).Nonempty → p ∈ lv.global

/-- The underlying declaration of the liveness example program. -/
def lvDecl : Decl := ⟨10, .var_decl, false, false, true, false, 0⟩

def lvA1 : Tree := .ssa 1 lvDecl false 0

def lvA2 : Tree := .ssa 2 lvDecl false 0

def lvA3 : Tree := .ssa 3 lvDecl false 0

def lvB1 : Tree := .ssa 4 lvDecl false 0

def lvB3 : Tree := .ssa 5 lvDecl false 0

/-- `a_3 = PHI <a_1 (from block 0), a_2 (from block 1)>`. -/
def lvPhiA : Phi := ⟨lvA3, [⟨lvA1, .blk 0⟩, ⟨lvA2, .blk 1⟩]⟩

/-- `b_3 = PHI <b_1 (from block 0), a_3 (from block 1)>` — the second
argument names the previous phi's result. -/
def lvPhiB : Phi := ⟨lvB3, [⟨lvB1, .blk 0⟩, ⟨lvA3, .blk 1⟩]⟩

/-- The cross-phi example: block 0 defines `b_1` (and uses nothing),
block 1 defines `a_2`, block 2 holds the two phis above.  `a_1`
(version 1) is a default definition with no defining statement. -/
def lvProg : Program where
  blocks := [
    ⟨[], [⟨[], [lvB1]⟩], [.entry]⟩,
    ⟨[], [⟨[], [lvA2]⟩], [.blk 0]⟩,
    ⟨[lvPhiA, lvPhiB], [], [.blk 0, .blk 1]⟩]
  defstmt := fun v =>
    if v = 2 then some (some 1)
    else if v = 3 then some (some 2)
    else if v = 4 then some (some 0)
    else if v = 5 then some (some 2)
    else none

/-- The identity partition map over the example's six versions. -/
def lvMap : VarMap where
  var_partition := [0, 1, 2, 3, 4, 5]
  partition_to_var :=
    [none, some lvA1, some lvA2, some lvA3, some lvB1, some lvB3]
  partition_to_compact := none
  compact_to_partition := none
  num_partitions := 6
  partition_size := 6
  anns := fun _ => VarAnn.clear

/-! ## Conflict graph and the coalescer -/

/-- Modelled from the spec: the conflict graph, "symmetric, sparse;
supports `add(a,b)`, `conflict?(a,b)`, and `merge(keep, drop)`".
Rendered as a bag of undirected edges. -/
structure ConflictGraph where
  edges : List (Nat × Nat)
deriving DecidableEq, Repr

/-- Modelled from the spec: `conflict_graph_add`. -/
def conflict_graph_add (g : ConflictGraph) (a b : Nat) : ConflictGraph :=
  ⟨(a, b) :: g.edges⟩

/-- Modelled from the spec: `conflict_graph_conflict_p`, symmetric edge
lookup. -/
def conflict_graph_conflict_p (g : ConflictGraph) (a b : Nat) : Bool :=
  g.edges.any (fun e => (e.1 = a && e.2 = b) || (e.1 = b && e.2 = a))

/-- Modelled from the spec: `conflict_graph_merge_regs keep drop` moves
the dropped register's neighborhood onto the kept one. -/
def conflict_graph_merge_regs (g : ConflictGraph) (keep drp : Nat) :
    ConflictGraph :=
  ⟨g.edges.map (fun e =>
    (if e.1 = drp then keep else e.1, if e.2 = drp then keep else e.2))⟩

/-- One interference test performed by `coalesce_tpa_members` at a
`var_union` site: the conflict graph at that moment, the two partition
representatives tested, and whether the union was performed. -/
structure CoalesceEvent where
  graph : ConflictGraph
  p1 : Nat
  p2 : Nat
  did : Bool
deriving DecidableEq, Repr

/-- The coalescer's state triple: the TPA, the conflict graph and the
partition map. -/
def CoalesceState : Type := Tpa × ConflictGraph × VarMap

/-- The coalesce-list loop of `coalesce_tpa_members` (`tree-ssa-live.c`):
pop the best pair, reject non-matching or absent TPA classes,
re-resolve both partitions through the map, skip already-coalesced
pairs, and union only when the conflict graph reports no
interference, merging the loser's neighborhood and removing it from
its class.  Each interference test is recorded as a `CoalesceEvent`.
NULL representatives (dereferenced blindly by the C code) and failed
assertions abort with `none`; the fuel steps once per pop and is
sized by the caller. -/
def coalesce_cl_loop : Nat → Tpa → ConflictGraph → VarMap →
    CoalesceList → Option (CoalesceState × List CoalesceEvent)
  | 0, _, _, _, _ => none
  | fuel + 1, tp, g, m, cl =>
      match pop_best_coalesce cl with
      | none => none
      | some (none, _) => some ((tp, g, m), [])
      | some (some (x, y, _), cl') =>
          match tpa_find_tree tp x, tpa_find_tree tp y with
          | some w, some z =>
              if w ≠ z then coalesce_cl_loop fuel tp g m cl'
              else
                match partition_to_var m x, partition_to_var m y with
                | some var, some tmp =>
                    match var_to_partition m var, var_to_partition m tmp
                      with
                    | some x1, some y1 =>
                        if x1 = y1 then coalesce_cl_loop fuel tp g m cl'
                        else if conflict_graph_conflict_p g x1 y1 then
                          match coalesce_cl_loop fuel tp g m cl' with
                          | none => none
                          | some (st, evs) =>
                              some (st, ⟨g, x1, y1, false⟩ :: evs)
                        else
                          match var_union m var tmp with
                          | none => none
                          | some (m1, none) =>
                              match coalesce_cl_loop fuel tp g m1 cl'
                                with
                              | none => none
                              | some (st, evs) =>
                                  some (st, ⟨g, x1, y1, false⟩ :: evs)
                          | some (m1, some v) =>
                              let gtp : ConflictGraph × Option Tpa :=
                                if v = x1 then
                                  (conflict_graph_merge_regs g x1 y1,
                                   match tpa_find_tree tp y1 with
                                   | some w1 =>
                                       some (tpa_remove_partition tp w1 y1)
                                   | none => none)
                                else
                                  (conflict_graph_merge_regs g y1 x1,
                                   match tpa_find_tree tp x1 with
                                   | some w1 =>
                                       some (tpa_remove_partition tp w1 x1)
                                   | none => none)
                              match gtp.2 with
                              | none => none
                              | some tp1 =>
                                  match coalesce_cl_loop fuel tp1 gtp.1
                                      m1 cl' with
                                  | none => none
                                  | some (st, evs) =>
                                      some (st, ⟨g, x1, y1, true⟩ :: evs)
                    | _, _ => none
                | _, _ => none
          | _, _ => coalesce_cl_loop fuel tp g m cl'

/-- The inner `z` loop of `coalesce_tpa_members`' no-list mode: walk the
rest of class `x`'s chain, splicing out partitions already holding
the same representative, and unioning non-conflicting members into
the growing first partition (whose representative and partition id
are updated on the way).  Chain advancement is fueled; events are
recorded at each interference test. -/
def coalesce_z_loop (x y : Nat) : Nat → Tpa → ConflictGraph → VarMap →
    Tree → Nat → Option Nat → Option (CoalesceState × List CoalesceEvent)
  | _, tp, g, m, _, _, none => some ((tp, g, m), [])
  | 0, _, _, _, _, _, some _ => none
  | fuel + 1, tp, g, m, var, p1, some z =>
      match partition_to_var m z with
      | none => none
      | some tmp =>
          match var_to_partition m tmp with
          | none => none
          | some p2 =>
              if tmp = var then
                coalesce_z_loop x y fuel (tpa_remove_partition tp x z) g m
                  var p1 (tpa_next_partition (tpa_remove_partition tp x z) z)
              else if conflict_graph_conflict_p g p1 p2 then
                match coalesce_z_loop x y fuel tp g m var p1
                    (tpa_next_partition tp z) with
                | none => none
                | some (st, evs) => some (st, ⟨g, p1, p2, false⟩ :: evs)
              else
                match tpa_find_tree tp y, tpa_find_tree tp z with
                | some _, some _ =>
                    match var_union m var tmp with
                    | none => none
                    | some (m1, none) =>
                        match coalesce_z_loop x y fuel tp g m1 var p1
                            (tpa_next_partition tp z) with
                        | none => none
                        | some (st, evs) =>
                            some (st, ⟨g, p1, p2, false⟩ :: evs)
                    | some (m1, some v) =>
                        let tp1 := tpa_remove_partition tp x z
                        let gp : ConflictGraph × Nat :=
                          if v = p1 then
                            (conflict_graph_merge_regs g v z, p1)
                          else (conflict_graph_merge_regs g v y, v)
                        match partition_to_var m1 gp.2 with
                        | none => none
                        | some var1 =>
                            match coalesce_z_loop x y fuel tp1 gp.1 m1
                                var1 gp.2 (tpa_next_partition tp1 z) with
                            | none => none
                            | some (st, evs) =>
                                some (st, ⟨g, p1, p2, true⟩ :: evs)
                | _, _ =>
                    match coalesce_z_loop x y fuel tp g m var p1
                        (tpa_next_partition tp z) with
                    | none => none
                    | some (st, evs) =>
                        some (st, ⟨g, p1, p2, false⟩ :: evs)

/-- The `while (tpa_first_partition ...)` loop of the no-list mode:
detach the class head, resolve its representative, and run the `z`
chain walk; repeat until the class empties. -/
def coalesce_while_loop (x : Nat) : Nat → Tpa → ConflictGraph → VarMap →
    Option (CoalesceState × List CoalesceEvent)
  | 0, tp, g, m =>
      match tpa_first_partition tp x with
      | none => some ((tp, g, m), [])
      | some _ => none
  | fuel + 1, tp, g, m =>
      match tpa_first_partition tp x with
      | none => some ((tp, g, m), [])
      | some y =>
          let tp1 := tpa_remove_partition tp x y
          match partition_to_var m y with
          | none => none
          | some var =>
              match var_to_partition m var with
              | none => none
              | some p1 =>
                  match coalesce_z_loop x y
                      (tp1.next_partition.length + 1) tp1 g m var p1
                      (tpa_next_partition tp1 y) with
                  | none => none
                  | some ((tp2, g2, m2), evs1) =>
                      match coalesce_while_loop x fuel tp2 g2 m2 with
                      | none => none
                      | some (st, evs2) => some (st, evs1 ++ evs2)

/-- The outer `for (x = 0; x < tpa_num_trees ...)` loop of the no-list
mode, over a precomputed list of class indices. -/
def coalesce_tree_loop : List Nat → Tpa → ConflictGraph → VarMap →
    Option (CoalesceState × List CoalesceEvent)
  | [], tp, g, m => some ((tp, g, m), [])
  | x :: xs, tp, g, m =>
      match coalesce_while_loop x (tp.next_partition.length + 1) tp g m
        with
      | none => none
      | some ((tp1, g1, m1), evs1) =>
          match coalesce_tree_loop xs tp1 g1 m1 with
          | none => none
          | some (st, evs2) => some (st, evs1 ++ evs2)

/-- `coalesce_tpa_members tpa graph map cl` (`tree-ssa-live.c`): with a
coalesce list, attempt exactly the listed coalesces; without one,
greedily collapse each TPA class.  Returns the final state together
with the trace of interference tests. -/
def coalesce_tpa_members (tp : Tpa) (g : ConflictGraph) (m : VarMap)
    (cl : Option CoalesceList) :
    Option (CoalesceState × List CoalesceEvent) :=
  match cl with
  | some cl => coalesce_cl_loop ((cl.list.getD 0 []).length + 1) tp g m cl
  | none => coalesce_tree_loop (List.range tp.num_trees) tp g m

/-- A partition is admissible for `type_var_init`: it is the canonical
partition of some representative that passes the exclusion filter. -/
def tv_good (m : VarMap) (p : Nat) : Prop :=
  ∃ x t, partition_to_var m x = some t ∧
    type_var_disallowed t = false ∧ var_to_partition m t = some p

/-- Invariant of `type_var_init`'s loop state: the seen set holds only
admissible partitions, every class head and every `next_partition`
target is seen, and unseen partitions carry no `next` link. -/
def tpa_inv (m : VarMap) (ts : Tpa × Finset Nat) : Prop :=
  (∀ q ∈ ts.2, tv_good m q) ∧
  (∀ ti s, tpa_first_partition ts.1 ti = some s → s ∈ ts.2) ∧
  (∀ q r, ts.1.next_partition.getD q none = some r → r ∈ ts.2)

/-- A parameter declaration (excluded by `type_var_init`). -/
def c8Parm : Decl := ⟨20, .parm_decl, false, false, true, false, 7⟩

/-- An ordinary ignorable local backing the admissible partitions. -/
def c8Var : Decl := ⟨21, .var_decl, false, false, true, false, 7⟩

def c8P : Tree := .dc c8Parm

def c8A1 : Tree := .ssa 1 c8Var false 7

def c8A2 : Tree := .ssa 2 c8Var false 7

/-- A three-partition map whose partition 0 is represented by the
parameter `c8P` and partitions 1 and 2 by SSA names of type 7. -/
def c8Map : VarMap where
  var_partition := [0, 1, 2]
  partition_to_var := [some c8P, some c8A1, some c8A2]
  partition_to_compact := none
  compact_to_partition := none
  num_partitions := 3
  partition_size := 3
  anns := fun u => if u = 20 then ⟨true, 0, false, 0⟩ else VarAnn.clear

/-- The TPA `type_var_init` builds over `c8Map` (a single class of type
7 holding partitions 1 and 2). -/
def c8Tv : Tpa :=
  match type_var_init c8Map with
  | some r => r
  | none => ⟨0, none, [], [], [], []⟩

def c1T0 : Tree := .ssa 0 c8Var false 7

def c1T1 : Tree := .ssa 1 c8Var false 7

/-- A two-partition map over SSA versions 0 and 1. -/
def c1Map : VarMap where
  var_partition := [0, 1]
  partition_to_var := [some c1T0, some c1T1]
  partition_to_compact := none
  compact_to_partition := none
  num_partitions := 2
  partition_size := 2
  anns := fun _ => VarAnn.clear

/-- A TPA with one class of type 7 chaining partitions 0 and 1. -/
def c1Tpa : Tpa :=
  ⟨1, none, [some 1, none], [some 0, some 0], [Sum.inr 7], [some 0]⟩

/-- The empty conflict graph. -/
def c1G : ConflictGraph := ⟨[]⟩

/-- A sorted coalesce list holding the single candidate `(0, 1)`. -/
def c1Cl : CoalesceList where
  add_mode := false
  list := [[⟨0, 1, 1⟩]]

/-- The state and event trace of the coalescer on the example above. -/
def c1Res : CoalesceState × List CoalesceEvent :=
  match coalesce_tpa_members c1Tpa c1G c1Map (some c1Cl) with
  | some r => r
  | none => ((c1Tpa, c1G, c1Map), [])

/-- Every performed union in an event trace was tested interference-free
on the graph current at that moment. -/
def evs_ok (evs : List CoalesceEvent) : Prop :=
  ∀ ev ∈ evs, ev.did = true →
    conflict_graph_conflict_p ev.graph ev.p1 ev.p2 = false

/-! ## Theorems -/

/-- The tail of `var_union` with two real-declaration operands: both
declarations' annotations record the merged partition, and when the
map is compacted the last `change_partition_var` call leaves
`other_var` (the second component) in `partition_to_var`. -/
theorem var_union_core_both (m : VarMap) (p1 p2 : Nat) (e1 e2 : Decl)
    (m' : VarMap) (p3 : Nat) (hne : e1.uid ≠ e2.uid)
    (h : var_union_core m p1 p2 (some (.dc e1), some (.dc e2)) =
      some (m', some p3)) :
    (m'.anns e1.uid).out_of_ssa_tag = true ∧ (m'.anns e1.uid).part = p3 ∧
    (m'.anns e2.uid).out_of_ssa_tag = true ∧ (m'.anns e2.uid).part = p3 ∧
    (∀ ctp, m.compact_to_partition = some ctp →
      ctp.getD p3 0 < m.partition_to_var.length →
      m'.partition_to_var.getD (ctp.getD p3 0) none = some (.dc e2)) := by
  rcases hcc : m.compact_to_partition with _ | ctp0 <;>
    rcases hpc : m.partition_to_compact with _ | ptc
  case none.none =>
    simp only [var_union_core, change_partition_var, Tree.isSSA, hpc, hcc,
      Bool.false_eq_true, if_false, Option.some.injEq, Prod.mk.injEq] at h
    obtain ⟨hm, hp⟩ := h
    subst hp
    subst hm
    refine ⟨?_, ?_, ?_, ?_, fun ctp hctp _ => Option.noConfusion hctp⟩
    · simp [updf, hne, Ne.symm hne, Tree.uid]
    · simp [updf, hne, Ne.symm hne, Tree.uid]
    · simp [updf, Tree.uid]
    · simp [updf, Tree.uid]
  case none.some =>
    rcases hg : ptc.getD (if p1 = p2 then (m.var_partition, p1)
      else partition_union m.var_partition p1 p2).2 none with _ | p3v
    · simp only [var_union_core, change_partition_var, Tree.isSSA, hpc, hcc,
        hg] at h
      exact Option.noConfusion h
    · simp only [var_union_core, change_partition_var, Tree.isSSA, hpc, hcc,
        hg, Bool.false_eq_true, if_false, Option.some.injEq,
        Prod.mk.injEq] at h
      obtain ⟨hm, hp⟩ := h
      subst hp
      subst hm
      refine ⟨?_, ?_, ?_, ?_, fun ctp hctp _ => Option.noConfusion hctp⟩
      · simp [updf, hne, Ne.symm hne, Tree.uid]
      · simp [updf, hne, Ne.symm hne, Tree.uid]
      · simp [updf, Tree.uid]
      · simp [updf, Tree.uid]
  case some.none =>
    simp only [var_union_core, change_partition_var, Tree.isSSA, hpc, hcc,
      Bool.false_eq_true, if_false, Option.some.injEq, Prod.mk.injEq] at h
    obtain ⟨hm, hp⟩ := h
    subst hp
    subst hm
    refine ⟨?_, ?_, ?_, ?_, ?_⟩
    · simp [updf, hne, Ne.symm hne, Tree.uid]
    · simp [updf, hne, Ne.symm hne, Tree.uid]
    · simp [updf, Tree.uid]
    · simp [updf, Tree.uid]
    · intro ctp hctp hlen
      obtain hctp := Option.some.inj hctp
      subst hctp
      simp only [List.set_set]
      rw [List.getD_eq_getElem?_getD, List.getElem?_set_self
        (by simpa using hlen)]
      rfl
  case some.some =>
    rcases hg : ptc.getD (if p1 = p2 then (m.var_partition, p1)
      else partition_union m.var_partition p1 p2).2 none with _ | p3v
    · simp only [var_union_core, change_partition_var, Tree.isSSA, hpc, hcc,
        hg] at h
      exact Option.noConfusion h
    · simp only [var_union_core, change_partition_var, Tree.isSSA, hpc, hcc,
        hg, Bool.false_eq_true, if_false, Option.some.injEq,
        Prod.mk.injEq] at h
      obtain ⟨hm, hp⟩ := h
      subst hp
      subst hm
      refine ⟨?_, ?_, ?_, ?_, ?_⟩
      · simp [updf, hne, Ne.symm hne, Tree.uid]
      · simp [updf, hne, Ne.symm hne, Tree.uid]
      · simp [updf, Tree.uid]
      · simp [updf, Tree.uid]
      · intro ctp hctp hlen
        obtain hctp := Option.some.inj hctp
        subst hctp
        simp only [List.set_set]
        rw [List.getD_eq_getElem?_getD, List.getElem?_set_self
          (by simpa using hlen)]
        rfl

/-- C6 (amended).  When `var_union` is applied to two real declarations,
the preference rule selects the user-visible one over a
`DECL_IGNORED_P` one as `root_var`; `change_partition_var` records the
merged partition in both declarations' side data (out-of-SSA tag and
partition id), with `root_var` written first; consequently, when the
map is compacted, the `partition_to_var` slot of the merged partition
is last written with the other, non-preferred declaration. -/
theorem var_union_both_real (m : VarMap) (d1 d2 : Decl) (m' : VarMap)
    (p3 : Nat) (hne : d1.uid ≠ d2.uid)
    (h : var_union m (.dc d1) (.dc d2) = some (m', some p3)) :
    var_union_roots (.dc d1) (.dc d2) =
      (if d1.ignored then (some (.dc d2), some (.dc d1))
       else (some (.dc d1), some (.dc d2))) ∧
    (m'.anns d1.uid).out_of_ssa_tag = true ∧ (m'.anns d1.uid).part = p3 ∧
    (m'.anns d2.uid).out_of_ssa_tag = true ∧ (m'.anns d2.uid).part = p3 ∧
    (∀ ctp, m.compact_to_partition = some ctp →
      ctp.getD p3 0 < m.partition_to_var.length →
      m'.partition_to_var.getD (ctp.getD p3 0) none =
        some (if d1.ignored then Tree.dc d1 else Tree.dc d2)) := by
  have hroots : var_union_roots (.dc d1) (.dc d2) =
      (if d1.ignored then (some (.dc d2), some (.dc d1))
       else (some (.dc d1), some (.dc d2))) := by
    by_cases hi : d1.ignored <;>
      simp [var_union_roots, Tree.isSSA, Tree.isDecl, Tree.ignoredFlag, hi]
  refine ⟨hroots, ?_⟩
  unfold var_union at h
  rcases hr1 : var_union_resolve m (.dc d1) with _ | q1 <;>
    rcases hr2 : var_union_resolve m (.dc d2) with _ | q2 <;>
      rw [hr1, hr2] at h
  · exact Option.noConfusion h
  · exact Option.noConfusion h
  · exact Option.noConfusion h
  rw [hroots] at h
  by_cases hi : d1.ignored
  · rw [if_pos hi] at h
    obtain ⟨h1, h2, h3, h4, h5⟩ :=
      var_union_core_both m q1 q2 d2 d1 m' p3 (Ne.symm hne) h
    rw [if_pos hi]
    exact ⟨h3, h4, h1, h2, h5⟩
  · rw [if_neg hi] at h
    obtain ⟨h1, h2, h3, h4, h5⟩ :=
      var_union_core_both m q1 q2 d1 d2 m' p3 hne h
    rw [if_neg hi]
    exact ⟨h1, h2, h3, h4, h5⟩

/-- C6 (counterexample).  A concrete compacted map in which the two
operands of `var_union` are both real declarations, the first
(`cexA`) compiler-ignored and the second (`cexB`) user-visible: the
union succeeds, yet the `partition_to_var` slot of the merged
partition ends up holding the ignored declaration `cexA`, not the
user-visible `cexB` the preference rule chose. -/
theorem var_union_pref_counterexample :
    cexA.ignoredFlag = true ∧ cexB.ignoredFlag = false ∧
    (var_union cexMap cexA cexB).map
        (fun r => (r.2, r.1.partition_to_var.getD 0 none)) =
      some (some 0, some cexA) ∧
    cexA ≠ cexB := by
  refine ⟨rfl, rfl, ?_, by decide⟩
  rfl

/-- Witness for `var_union_both_real`: instantiating it on the concrete
map `cexMap` and declarations `cexDeclA`, `cexDeclB`. -/
theorem var_union_both_real_witness :
    (cexMapU.anns cexDeclA.uid).out_of_ssa_tag = true ∧
    (cexMapU.anns cexDeclB.uid).part = 0 := by
  obtain ⟨_, h1, _, _, h4, _⟩ :=
    var_union_both_real cexMap cexDeclA cexDeclB cexMapU 0 (by decide) rfl
  exact ⟨h1, h4⟩

theorem getD_set_zero {α : Type} (l : List α) (a d : α) (h : 0 < l.length) :
    (l.set 0 a).getD 0 d = a := by
  rw [List.getD_eq_getElem?_getD, List.getElem?_set_self (by simpa using h)]
  rfl

/-- Iterated popping returns exactly chain 0, in order. -/
theorem pop_all_chain : ∀ (n : Nat) (cl : CoalesceList),
    (cl.list.getD 0 []).length ≤ n → cl.add_mode = false →
    pop_all cl = (cl.list.getD 0 []).map
      (fun nd => (nd.first_partition, nd.second_partition, nd.cost)) := by
  intro n
  induction n with
  | zero =>
      intro cl hlen hmode
      have hnil : cl.list.getD 0 [] = [] :=
        List.length_eq_zero.mp (Nat.le_zero.mp hlen)
      rw [pop_all, if_neg (by simp [hmode])]
      split
      · rw [hnil]
        rfl
      · rename_i nd rest heq
        rw [hnil] at heq
        exact List.noConfusion heq
  | succ k ih =>
      intro cl hlen hmode
      rw [pop_all, if_neg (by simp [hmode])]
      split
      · rename_i heq
        rw [heq]
        rfl
      · rename_i nd rest heq
        have hpos : 0 < cl.list.length := by
          rcases hc : cl.list with _ | ⟨x, t⟩
          · rw [hc] at heq
            simp [List.getD] at heq
          · simp
        have hset : ({ cl with list := cl.list.set 0 rest } :
            CoalesceList).list.getD 0 [] = rest := getD_set_zero _ _ _ hpos
        have hbound : (({ cl with list := cl.list.set 0 rest } :
            CoalesceList).list.getD 0 []).length ≤ k := by
          rw [hset]
          have hl2 := hlen
          rw [heq] at hl2
          simp only [List.length_cons] at hl2
          omega
        rw [ih { cl with list := cl.list.set 0 rest } hbound hmode, hset, heq,
          List.map_cons]

/-- C7.  After `sort_coalesce_list`, repeatedly applying
`pop_best_coalesce` until `NO_BEST_COALESCE` yields pairs whose costs
are non-increasing, whatever the number of pairs (covering the empty,
singleton, hand-swapped two-element, and `qsort` cases). -/
theorem sort_pop_non_increasing (cl cl' : CoalesceList)
    (hmode : cl.add_mode = true) (hs : sort_coalesce_list cl = some cl') :
    List.Sorted (fun a b : Nat × Nat × Int => b.2.2 ≤ a.2.2)
      (pop_all cl') := by
  unfold sort_coalesce_list at hs
  rw [hmode] at hs
  simp only [Bool.not_true, Bool.false_eq_true, if_false,
    Option.some.injEq] at hs
  subst hs
  rw [pop_all_chain ((((List.replicate cl.list.length
    ([] : List PartitionPair)).set 0 _).getD 0 []).length) _ le_rfl rfl]
  rcases hn : cl.list.length with _ | k
  · simp
  · rw [getD_set_zero _ _ _ (by simp [hn])]
    generalize cl.list.foldl (fun ch l => l ++ ch) [] = chain
    by_cases h2 : 2 < chain.length
    · rw [if_pos h2]
      refine List.Pairwise.map _ ?_ (List.sorted_insertionSort pair_order chain)
      intro a b hr
      simp only [pair_order, compare_pairs] at hr
      show b.cost ≤ a.cost
      omega
    · rw [if_neg h2]
      rcases chain with _ | ⟨a, _ | ⟨b, _ | ⟨c, t⟩⟩⟩
      · simp [hand_swap_two]
      · simp [hand_swap_two]
      · show List.Sorted _ (List.map _ (hand_swap_two [a, b]))
        rw [hand_swap_two]
        by_cases hc : a.cost < b.cost
        · rw [if_pos hc]
          simp only [List.map_cons, List.map_nil, List.sorted_cons,
            List.mem_singleton]
          refine ⟨fun x hx => ?_, by simp⟩
          subst hx
          show a.cost ≤ b.cost
          omega
        · rw [if_neg hc]
          simp only [List.map_cons, List.map_nil, List.sorted_cons,
            List.mem_singleton]
          refine ⟨fun x hx => ?_, by simp⟩
          subst hx
          show b.cost ≤ a.cost
          omega
      · exfalso
        apply h2
        simp

/-- C9.  The coalesce-list mode contract is enforced by assertions:
after `sort_coalesce_list` the list is in sorted mode, where
`add_coalesce` and a second `sort_coalesce_list` die on the
`add_mode` assertion while `pop_best_coalesce` succeeds; before the
sort, adds succeed and `pop_best_coalesce` dies on its converse
assertion. -/
theorem coalesce_list_mode_asserts (cl cl' : CoalesceList)
    (hmode : cl.add_mode = true) (hs : sort_coalesce_list cl = some cl') :
    cl'.add_mode = false ∧
    (∀ p1 p2 v, add_coalesce cl' p1 p2 v = none) ∧
    sort_coalesce_list cl' = none ∧
    (∀ p1 p2 v, (add_coalesce cl p1 p2 v).isSome = true) ∧
    pop_best_coalesce cl = none ∧
    (pop_best_coalesce cl').isSome = true := by
  unfold sort_coalesce_list at hs
  rw [hmode] at hs
  simp only [Bool.not_true, Bool.false_eq_true, if_false,
    Option.some.injEq] at hs
  subst hs
  refine ⟨rfl, ?_, ?_, ?_, ?_, ?_⟩
  · intro p1 p2 v
    rfl
  · rfl
  · intro p1 p2 v
    unfold add_coalesce
    rw [hmode]
    simp only [Bool.not_true, Bool.false_eq_true, if_false]
    split <;> simp
  · unfold pop_best_coalesce
    rw [hmode]
    rfl
  · unfold pop_best_coalesce
    rw [if_neg (by simp)]
    split <;> simp

theorem find_pair_add_cost_ok (p1 p2 : Nat) (v : Int) (h : p1 < p2) :
    ∀ ch : List PartitionPair,
    (∀ nd ∈ ch, nd.first_partition < nd.second_partition) →
    ∀ nd ∈ find_pair_add_cost p1 p2 v ch,
      nd.first_partition < nd.second_partition := by
  intro ch
  induction ch with
  | nil =>
      intro _ nd hnd
      simp only [find_pair_add_cost, List.mem_singleton] at hnd
      subst hnd
      exact h
  | cons hd tl ih =>
      intro hch nd hnd
      simp only [find_pair_add_cost] at hnd
      by_cases h1 : hd.second_partition = p2
      · rw [if_pos h1] at hnd
        rcases List.mem_cons.mp hnd with hl | hl
        · rw [hl]
          simpa using hch hd (by simp)
        · exact hch nd (List.mem_cons_of_mem _ hl)
      · rw [if_neg h1] at hnd
        by_cases h2 : p2 < hd.second_partition
        · rw [if_pos h2] at hnd
          rcases List.mem_cons.mp hnd with hl | hl
          · rw [hl]
            exact h
          · exact hch nd hl
        · rw [if_neg h2] at hnd
          rcases List.mem_cons.mp hnd with hl | hl
          · rw [hl]
            exact hch hd (by simp)
          · exact ih (fun x hx => hch x (List.mem_cons_of_mem _ hx)) nd hl

theorem add_coalesce_preserves_ok (cl : CoalesceList) (p1 p2 : Nat) (v : Int)
    (cl' : CoalesceList) (hok : cl_pairs_ok cl)
    (h : add_coalesce cl p1 p2 v = some cl') : cl_pairs_ok cl' := by
  unfold add_coalesce at h
  split at h
  · exact Option.noConfusion h
  · split at h
    · obtain rfl := Option.some.inj h
      exact hok
    · obtain rfl := Option.some.inj h
      intro ch hch nd hnd
      rename_i hmode hne
      rcases List.mem_or_eq_of_mem_set hch with hl | hl
      · exact hok ch hl nd hnd
      · subst hl
        have hch0 : ∀ x ∈ cl.list.getD (if p2 < p1 then p2 else p1) [],
            x.first_partition < x.second_partition := by
          intro x hx
          rcases Nat.lt_or_ge (if p2 < p1 then p2 else p1) cl.list.length
            with hlt | hge
          · have hmem : cl.list.getD (if p2 < p1 then p2 else p1) [] ∈
                cl.list := by
              rw [List.getD_eq_getElem?_getD, List.getElem?_eq_getElem hlt]
              exact List.getElem_mem hlt
            exact hok _ hmem x hx
          · rw [List.getD_eq_default _ _ hge] at hx
            exact absurd hx (List.not_mem_nil x)
        refine find_pair_add_cost_ok _ _ v ?_ _ hch0 nd hnd
        split <;> omega

theorem hand_swap_two_mem (l : List PartitionPair) (nd : PartitionPair)
    (h : nd ∈ hand_swap_two l) : nd ∈ l := by
  rcases l with _ | ⟨a, _ | ⟨b, _ | ⟨c, t⟩⟩⟩
  · simpa [hand_swap_two] using h
  · simpa [hand_swap_two] using h
  · simp only [hand_swap_two] at h
    split at h <;> (simp at h ⊢; tauto)
  · simpa [hand_swap_two] using h

theorem sort_preserves_ok (cl cl' : CoalesceList) (hok : cl_pairs_ok cl)
    (h : sort_coalesce_list cl = some cl') : cl_pairs_ok cl' := by
  unfold sort_coalesce_list at h
  split at h
  · exact Option.noConfusion h
  · obtain rfl := Option.some.inj h
    have hchain : ∀ nd ∈ cl.list.foldl (fun ch l => l ++ ch) [],
        nd.first_partition < nd.second_partition := by
      have main : ∀ (ls : List (List PartitionPair))
          (init : List PartitionPair),
          (∀ ch ∈ ls, ∀ nd ∈ ch, nd.first_partition < nd.second_partition) →
          (∀ nd ∈ init, nd.first_partition < nd.second_partition) →
          ∀ nd ∈ ls.foldl (fun ch l => l ++ ch) init,
            nd.first_partition < nd.second_partition := by
        intro ls
        induction ls with
        | nil => intro init _ hinit nd hnd; exact hinit nd hnd
        | cons hd tl ih =>
            intro init hls hinit nd hnd
            refine ih _ (fun ch hch => hls ch (List.mem_cons_of_mem _ hch))
              ?_ nd hnd
            intro x hx
            rcases List.mem_append.mp hx with hl | hl
            · exact hls hd (by simp) x hl
            · exact hinit x hl
      exact main cl.list [] hok (by simp)
    intro ch hch nd hnd
    rcases List.mem_or_eq_of_mem_set hch with hl | hl
    · rw [List.eq_of_mem_replicate hl] at hnd
      exact absurd hnd (List.not_mem_nil nd)
    · subst hl
      revert hnd
      split
      · intro hnd
        exact hchain nd ((List.perm_insertionSort pair_order _).mem_iff.mp hnd)
      · intro hnd
        exact hchain nd (hand_swap_two_mem _ _ hnd)

theorem pop_ok_distinct (cl : CoalesceList) (a b : Nat) (c : Int)
    (rest : CoalesceList) (hok : cl_pairs_ok cl)
    (h : pop_best_coalesce cl = some (some (a, b, c), rest)) : a < b := by
  unfold pop_best_coalesce at h
  split at h
  · exact Option.noConfusion h
  · split at h
    · simp at h
    · rename_i nd tl heq
      simp only [Option.some.injEq, Prod.mk.injEq] at h
      obtain ⟨⟨ha, hb, _⟩, _⟩ := h
      subst ha
      subst hb
      have hpos : 0 < cl.list.length := by
        rcases hc : cl.list with _ | ⟨x, t⟩
        · rw [hc] at heq
          simp [List.getD] at heq
        · simp
      have hmem : cl.list.getD 0 [] ∈ cl.list := by
        rw [List.getD_eq_getElem?_getD, List.getElem?_eq_getElem hpos]
        exact List.getElem_mem hpos
      exact hok _ hmem nd (by rw [heq]; simp)

/-- C10.  `add_coalesce cl p p v` is a no-op on an add-mode list (the
reflexive pair is dropped before any lookup or insertion); fresh
lists contain no reflexive pair and `add_coalesce` /
`sort_coalesce_list` keep it that way, so `pop_best_coalesce` never
returns a pair with `p1 = p2`. -/
theorem coalesce_list_irreflexive :
    (∀ cl p v, cl.add_mode = true → add_coalesce cl p p v = some cl) ∧
    (∀ m, cl_pairs_ok (create_coalesce_list m)) ∧
    (∀ cl p1 p2 v cl', cl_pairs_ok cl →
      add_coalesce cl p1 p2 v = some cl' → cl_pairs_ok cl') ∧
    (∀ cl cl', cl_pairs_ok cl →
      sort_coalesce_list cl = some cl' → cl_pairs_ok cl') ∧
    (∀ cl a b c rest, cl_pairs_ok cl →
      pop_best_coalesce cl = some (some (a, b, c), rest) → a ≠ b) := by
  refine ⟨?_, ?_, ?_, ?_, ?_⟩
  · intro cl p v hmode
    unfold add_coalesce
    rw [hmode]
    simp
  · intro m ch hch nd hnd
    rw [List.eq_of_mem_replicate hch] at hnd
    exact absurd hnd (List.not_mem_nil nd)
  · intro cl p1 p2 v cl' hok h
    exact add_coalesce_preserves_ok cl p1 p2 v cl' hok h
  · intro cl cl' hok h
    exact sort_preserves_ok cl cl' hok h
  · intro cl a b c rest hok h
    exact Nat.ne_of_lt (pop_ok_distinct cl a b c rest hok h)

/-- Witness for `sort_pop_non_increasing` on the concrete three-pair
list `cexCl`. -/
theorem sort_pop_non_increasing_witness :
    List.Sorted (fun a b : Nat × Nat × Int => b.2.2 ≤ a.2.2)
      (pop_all cexClS) :=
  sort_pop_non_increasing cexCl cexClS rfl rfl

/-- Witness for `coalesce_list_mode_asserts` on the concrete list
`cexCl`. -/
theorem coalesce_list_mode_asserts_witness :
    cexClS.add_mode = false ∧ sort_coalesce_list cexClS = none ∧
    pop_best_coalesce cexCl = none := by
  obtain ⟨h1, _, h3, _, h5, _⟩ :=
    coalesce_list_mode_asserts cexCl cexClS rfl rfl
  exact ⟨h1, h3, h5⟩

/-- Witness for `coalesce_list_irreflexive`: a reflexive add on the
concrete add-mode list `cexCl` is a no-op, and popping its sorted
form never yields equal partitions. -/
theorem coalesce_list_irreflexive_witness :
    add_coalesce cexCl 3 3 5 = some cexCl :=
  coalesce_list_irreflexive.1 cexCl 3 5 rfl

/-! ### Compaction preserves the union-find (C4) -/

theorem opt_fold_pres {σ α : Type} (f : σ → Nat → Option σ) (P : σ → α)
    (hf : ∀ s x s', f s x = some s' → P s' = P s) :
    ∀ (l : List Nat) (s s' : σ), opt_fold f s l = some s' → P s' = P s := by
  intro l
  induction l with
  | nil =>
      intro s s' h
      obtain rfl := Option.some.inj h
      rfl
  | cons x xs ih =>
      intro s s' h
      simp only [opt_fold] at h
      rcases hx : f s x with _ | s1
      · rw [hx] at h
        exact Option.noConfusion h
      · rw [hx] at h
        rw [ih s1 s' h, hf s x s1 hx]

theorem change_partition_var_pres (m : VarMap) (v : Tree) (p : Nat)
    (m' : VarMap) (h : change_partition_var m v p = some m') :
    m'.var_partition = m.var_partition ∧
    m'.compact_to_partition = m.compact_to_partition ∧
    m'.partition_to_compact = m.partition_to_compact ∧
    m'.num_partitions = m.num_partitions ∧
    m'.partition_size = m.partition_size := by
  simp only [change_partition_var] at h
  split at h
  · exact Option.noConfusion h
  · split at h <;>
      · obtain rfl := Option.some.inj h
        exact ⟨rfl, rfl, rfl, rfl, rfl⟩

theorem root_var_step_pres (m : VarMap) (s : Tpa × Finset Nat) (x : Nat)
    (r : VarMap × Tpa × Finset Nat) (h : root_var_step m s x = some r) :
    r.1.var_partition = m.var_partition ∧
    r.1.partition_to_var = m.partition_to_var ∧
    r.1.partition_to_compact = m.partition_to_compact ∧
    r.1.compact_to_partition = m.compact_to_partition ∧
    r.1.num_partitions = m.num_partitions ∧
    r.1.partition_size = m.partition_size := by
  simp only [root_var_step] at h
  split at h
  · obtain rfl := Option.some.inj h
    exact ⟨rfl, rfl, rfl, rfl, rfl, rfl⟩
  · split at h
    · exact Option.noConfusion h
    · split at h
      · obtain rfl := Option.some.inj h
        exact ⟨rfl, rfl, rfl, rfl, rfl, rfl⟩
      · split at h <;>
          · obtain rfl := Option.some.inj h
            exact ⟨rfl, rfl, rfl, rfl, rfl, rfl⟩

theorem root_var_loop_pres : ∀ (l : List Nat) (s r : VarMap × Tpa × Finset Nat),
    root_var_loop s l = some r →
    r.1.var_partition = s.1.var_partition ∧
    r.1.partition_to_var = s.1.partition_to_var ∧
    r.1.partition_to_compact = s.1.partition_to_compact ∧
    r.1.compact_to_partition = s.1.compact_to_partition ∧
    r.1.num_partitions = s.1.num_partitions ∧
    r.1.partition_size = s.1.partition_size := by
  intro l
  induction l with
  | nil =>
      intro s r h
      obtain rfl := Option.some.inj h
      exact ⟨rfl, rfl, rfl, rfl, rfl, rfl⟩
  | cons x xs ih =>
      intro s r h
      simp only [root_var_loop] at h
      rcases hx : root_var_step s.1 s.2 x with _ | s1
      · rw [hx] at h
        exact Option.noConfusion h
      · rw [hx] at h
        obtain ⟨a1, a2, a3, a4, a5, a6⟩ := ih s1 r h
        obtain ⟨b1, b2, b3, b4, b5, b6⟩ := root_var_step_pres s.1 s.2 x s1 hx
        exact ⟨a1.trans b1, a2.trans b2, a3.trans b3, a4.trans b4,
          a5.trans b5, a6.trans b6⟩

theorem root_var_reset_pres (rv : Tpa) : ∀ (m : VarMap),
    (root_var_reset m rv).var_partition = m.var_partition ∧
    (root_var_reset m rv).partition_to_var = m.partition_to_var ∧
    (root_var_reset m rv).partition_to_compact = m.partition_to_compact ∧
    (root_var_reset m rv).compact_to_partition = m.compact_to_partition ∧
    (root_var_reset m rv).num_partitions = m.num_partitions ∧
    (root_var_reset m rv).partition_size = m.partition_size := by
  unfold root_var_reset
  generalize List.range rv.num_trees = l
  induction l with
  | nil =>
      intro m
      exact ⟨rfl, rfl, rfl, rfl, rfl, rfl⟩
  | cons x xs ih =>
      intro m
      rw [List.foldl_cons]
      refine (ih _).imp (fun h => h.trans ?_) (fun h => h.imp
        (fun h => h.trans ?_) (fun h => h.imp (fun h => h.trans ?_)
        (fun h => h.imp (fun h => h.trans ?_) (fun h => h.imp
        (fun h => h.trans ?_) (fun h => h.trans ?_))))) <;>
        · rcases rv.trees.getD x (Sum.inr 0) with t | n <;> rfl

theorem root_var_init_pres (m : VarMap) (rv : Option Tpa) (m' : VarMap)
    (h : root_var_init m = some (rv, m')) :
    m'.var_partition = m.var_partition ∧
    m'.partition_to_var = m.partition_to_var ∧
    m'.partition_to_compact = m.partition_to_compact ∧
    m'.compact_to_partition = m.compact_to_partition ∧
    m'.num_partitions = m.num_partitions ∧
    m'.partition_size = m.partition_size := by
  unfold root_var_init at h
  split at h
  · obtain ⟨_, rfl⟩ := Prod.mk.injEq _ _ _ _ ▸ Option.some.inj h
    exact ⟨rfl, rfl, rfl, rfl, rfl, rfl⟩
  · rename_i rv0 _
    rcases hl : root_var_loop (m, rv0, ∅)
        (List.range (num_var_partitions m)).reverse with _ | s
    · rw [hl] at h
      exact Option.noConfusion h
    · rw [hl] at h
      obtain ⟨s1, s2, s3⟩ := s
      simp only [Option.some.injEq, Prod.mk.injEq] at h
      obtain ⟨_, hm⟩ := h
      subst hm
      obtain ⟨a1, a2, a3, a4, a5, a6⟩ :=
        root_var_loop_pres _ (m, rv0, ∅) (s1, s2, s3) hl
      obtain ⟨b1, b2, b3, b4, b5, b6⟩ := root_var_reset_pres s2 s1
      exact ⟨b1.trans a1, b2.trans a2, b3.trans a3, b4.trans a4,
        b5.trans a5, b6.trans a6⟩

theorem compact_build_step_pres (s : List (Option Nat) × VarMap) (x : Nat)
    (s' : List (Option Nat) × VarMap) (h : compact_build_step s x = some s') :
    s'.2.var_partition = s.2.var_partition := by
  simp only [compact_build_step] at h
  split at h
  · exact Option.noConfusion h
  · split at h
    · obtain rfl := Option.some.inj h
      rfl
    · rcases hc : change_partition_var _ _ _ with _ | m2
      · rw [hc] at h
        exact Option.noConfusion h
      · rw [hc] at h
        obtain rfl := Option.some.inj h
        exact (change_partition_var_pres _ _ _ _ hc).1

theorem compact_finish_uf (m3 : VarMap) (limit : Nat) (used : Finset Nat)
    (count : Nat) (m' : VarMap)
    (h : compact_finish m3 limit used count = some m') :
    m'.var_partition = m3.var_partition := by
  unfold compact_finish at h
  split at h
  · rcases hb : opt_fold compact_build_step (List.replicate limit none,
        { m3 with compact_to_partition := some [] })
        ((List.range limit).filter (fun x => decide (x ∈ used ∧ 1 ≤ x)))
      with _ | pm
    · rw [hb] at h
      exact Option.noConfusion h
    · rw [hb] at h
      obtain ⟨p2c, m5⟩ := pm
      obtain rfl := Option.some.inj h
      have := opt_fold_pres compact_build_step (fun s => s.2.var_partition)
        compact_build_step_pres _ _ _ hb
      simpa using this
  · obtain rfl := Option.some.inj h
    rfl

/-- `compact_var_map` never touches the union-find itself. -/
theorem compact_var_map_uf (m0 : VarMap) (flags : Bool) (m' : VarMap)
    (h : compact_var_map m0 flags = some m') :
    m'.var_partition = m0.var_partition := by
  unfold compact_var_map at h
  rcases hrv : (if flags then root_var_init (compact_reset m0)
      else some (none, compact_reset m0)) with _ | rvm2
  · rw [hrv] at h
    exact Option.noConfusion h
  · rw [hrv] at h
    obtain ⟨rv, m2⟩ := rvm2
    dsimp only at h
    have hm2 : m2.var_partition = m0.var_partition := by
      by_cases hf : flags
      · rw [if_pos hf] at hrv
        exact (root_var_init_pres _ _ _ hrv).1
      · rw [if_neg hf] at hrv
        simp only [Option.some.injEq, Prod.mk.injEq] at hrv
        rw [← hrv.2]
        rfl
    rcases hsc : compact_scan (compact_alloc m2 m0.partition_size) rv
      with _ | uc
    · rw [hsc] at h
      exact Option.noConfusion h
    · rw [hsc] at h
      obtain ⟨used, count⟩ := uc
      exact (compact_finish_uf _ _ _ _ _ h).trans hm2

theorem getD_set_self {α : Type} (l : List α) (i : Nat) (a d : α)
    (h : i < l.length) : (l.set i a).getD i d = a := by
  rw [List.getD_eq_getElem?_getD, List.getElem?_set_self (by simpa using h)]
  rfl

theorem getD_set_ne {α : Type} (l : List α) (i j : Nat) (a d : α)
    (h : i ≠ j) : (l.set i a).getD j d = l.getD j d := by
  rw [List.getD_eq_getElem?_getD, List.getElem?_set_ne h,
    ← List.getD_eq_getElem?_getD]

theorem compact_build_step_char (p2c0 : List (Option Nat)) (m0 : VarMap)
    (x : Nat) (s' : List (Option Nat) × VarMap) (c0 : List Nat)
    (hc0 : m0.compact_to_partition = some c0)
    (h : compact_build_step (p2c0, m0) x = some s') :
    s'.1 = p2c0.set x (some c0.length) ∧
    s'.2.compact_to_partition = some (c0 ++ [x]) := by
  simp only [compact_build_step, hc0, Option.getD_some] at h
  split at h
  · exact Option.noConfusion h
  · split at h
    · obtain rfl := Option.some.inj h
      exact ⟨rfl, rfl⟩
    · split at h
      · exact Option.noConfusion h
      · rename_i m2 heq
        obtain rfl := Option.some.inj h
        refine ⟨rfl, ?_⟩
        have := (change_partition_var_pres _ _ _ _ heq).2.1
        rw [this]

theorem compact_build_spec :
    ∀ (xs : List Nat) (p2c0 : List (Option Nat)) (m0 : VarMap)
      (c0 : List Nat) (p2c : List (Option Nat)) (mf : VarMap),
    opt_fold compact_build_step (p2c0, m0) xs = some (p2c, mf) →
    m0.compact_to_partition = some c0 →
    xs.Nodup → (∀ x ∈ xs, x < p2c0.length) →
    mf.compact_to_partition = some (c0 ++ xs) ∧
    p2c.length = p2c0.length ∧
    (∀ x, x ∉ xs → p2c.getD x none = p2c0.getD x none) ∧
    (∀ i, i < xs.length → p2c.getD (xs.getD i 0) none =
      some (c0.length + i)) := by
  intro xs
  induction xs with
  | nil =>
      intro p2c0 m0 c0 p2c mf h hc0 _ _
      simp only [opt_fold, Option.some.injEq, Prod.mk.injEq] at h
      obtain ⟨rfl, rfl⟩ := h
      refine ⟨by simpa using hc0, rfl, fun x _ => rfl, fun i hi => ?_⟩
      exact absurd hi (by simp)
  | cons x xs' ih =>
      intro p2c0 m0 c0 p2c mf h hc0 hnd hbd
      simp only [opt_fold] at h
      rcases hstep : compact_build_step (p2c0, m0) x with _ | s1
      · rw [hstep] at h
        exact Option.noConfusion h
      · rw [hstep] at h
        obtain ⟨hp1, hc1⟩ := compact_build_step_char p2c0 m0 x s1 c0 hc0 hstep
        obtain ⟨s1a, s1b⟩ := s1
        simp only at hp1 hc1
        subst hp1
        have hxlt : x < p2c0.length := hbd x (by simp)
        have hnd' : xs'.Nodup := (List.nodup_cons.mp hnd).2
        have hxnot : x ∉ xs' := (List.nodup_cons.mp hnd).1
        have hbd' : ∀ y ∈ xs', y < (p2c0.set x (some c0.length)).length := by
          intro y hy
          rw [List.length_set]
          exact hbd y (List.mem_cons_of_mem _ hy)
        obtain ⟨k1, k2, k3, k4⟩ := ih _ _ _ _ _ h hc1 hnd' hbd'
        refine ⟨by simpa using k1, by simpa using k2, ?_, ?_⟩
        · intro y hy
          have hy1 : y ∉ xs' := fun hc => hy (List.mem_cons_of_mem _ hc)
          have hy2 : y ≠ x := fun hc => hy (hc ▸ List.mem_cons_self x xs')
          rw [k3 y hy1, getD_set_ne _ _ _ _ _ (Ne.symm hy2)]
        · intro i hi
          rcases i with _ | j
          · simp only [List.getD_cons_zero]
            rw [k3 x hxnot, getD_set_self _ _ _ _ hxlt]
            simp
          · simp only [List.getD_cons_succ]
            have := k4 j (by simpa using Nat.succ_lt_succ_iff.mp hi)
            rw [this]
            simp only [List.length_append, List.length_singleton]
            congr 1
            omega

theorem getD_replicate_none (n x : Nat) :
    (List.replicate n (none : Option Nat)).getD x none = none := by
  rw [List.getD_eq_getElem?_getD, List.getElem?_replicate]
  split <;> rfl

/-- The compaction tables of a successful `compact_var_map` are built
over the (nodup, in-range) list of used bits, hence invert each
other on the retained partitions. -/
theorem compact_var_map_tables (m : VarMap) (flags : Bool) (m' : VarMap)
    (h : compact_var_map m flags = some m')
    (p2c : List (Option Nat)) (c2p : List Nat)
    (hp : m'.partition_to_compact = some p2c)
    (hc : m'.compact_to_partition = some c2p) :
    c2p.length = m'.num_partitions ∧
    (∀ i, i < c2p.length → p2c.getD (c2p.getD i 0) none = some i) ∧
    (∀ x c, p2c.getD x none = some c → c < c2p.length ∧ c2p.getD c 0 = x) := by
  unfold compact_var_map at h
  rcases hrv : (if flags then root_var_init (compact_reset m)
      else some (none, compact_reset m)) with _ | rvm2
  · rw [hrv] at h
    exact Option.noConfusion h
  rw [hrv] at h
  obtain ⟨rv, m2⟩ := rvm2
  dsimp only at h
  rcases hsc : compact_scan (compact_alloc m2 m.partition_size) rv
    with _ | uc
  · rw [hsc] at h
    exact Option.noConfusion h
  rw [hsc] at h
  obtain ⟨used, count⟩ := uc
  dsimp only at h
  unfold compact_finish at h
  split at h
  case isFalse =>
    obtain rfl := Option.some.inj h
    exact absurd hp (by simp)
  rcases hb : opt_fold compact_build_step
      (List.replicate m.partition_size none,
       { compact_alloc m2 m.partition_size with
         compact_to_partition := some [] })
      ((List.range m.partition_size).filter
        (fun x => decide (x ∈ used ∧ 1 ≤ x))) with _ | pm
  · rw [hb] at h
    exact Option.noConfusion h
  rw [hb] at h
  obtain ⟨p2cB, m5⟩ := pm
  obtain rfl := Option.some.inj h
  simp only at hp hc
  obtain rfl := Option.some.inj hp
  have hnd : ((List.range m.partition_size).filter
      (fun x => decide (x ∈ used ∧ 1 ≤ x))).Nodup :=
    (List.nodup_range _).filter _
  have hbd : ∀ x ∈ (List.range m.partition_size).filter
      (fun x => decide (x ∈ used ∧ 1 ≤ x)),
      x < (List.replicate m.partition_size (none : Option Nat)).length := by
    intro x hx
    rw [List.length_replicate]
    exact List.mem_range.mp (List.mem_of_mem_filter hx)
  obtain ⟨k1, _, k3, k4⟩ := compact_build_spec _ _ _ [] _ _ hb rfl hnd hbd
  rw [List.nil_append] at k1
  rw [k1] at hc
  simp only [Option.getD_some] at hc ⊢
  obtain rfl := Option.some.inj hc
  rw [k1]
  refine ⟨by simp, ?_, ?_⟩
  · intro i hi
    have := k4 i hi
    simpa using this
  · intro x c hxc
    by_cases hx : x ∈ (List.range m.partition_size).filter
        (fun y => decide (y ∈ used ∧ 1 ≤ y))
    · obtain ⟨i, hi, hxi⟩ := List.mem_iff_getElem.mp hx
      have hgd : ((List.range m.partition_size).filter
          (fun y => decide (y ∈ used ∧ 1 ≤ y))).getD i 0 = x := by
        rw [List.getD_eq_getElem?_getD, List.getElem?_eq_getElem hi]
        simpa using hxi
      have := k4 i hi
      rw [hgd] at this
      rw [this] at hxc
      obtain hcx := Option.some.inj hxc
      have hci : i = c := by simpa using hcx
      subst hci
      exact ⟨hi, hgd⟩
    · rw [k3 x hx, getD_replicate_none] at hxc
      exact Option.noConfusion hxc

/-- C4.  Compaction preserves partition membership: two SSA versions are
in the same partition before `compact_var_map` exactly when they are
after; the raw-to-compact and compact-to-raw tables, when they exist,
are mutually inverse on the retained partitions (the dense range
`[0, num_partitions)`); and recompacting with any flags leaves
membership unchanged again. -/
theorem compact_var_map_membership (m : VarMap) (flags : Bool) (m' : VarMap)
    (h : compact_var_map m flags = some m') :
    (∀ v1 v2 : Nat, same_partition m v1 v2 ↔ same_partition m' v1 v2) ∧
    (∀ flags' m'', compact_var_map m' flags' = some m'' →
      ∀ v1 v2 : Nat, same_partition m v1 v2 ↔ same_partition m'' v1 v2) ∧
    (∀ p2c c2p, m'.partition_to_compact = some p2c →
      m'.compact_to_partition = some c2p →
      c2p.length = m'.num_partitions ∧
      (∀ i, i < c2p.length → p2c.getD (c2p.getD i 0) none = some i) ∧
      (∀ x c, p2c.getD x none = some c →
        c < c2p.length ∧ c2p.getD c 0 = x)) := by
  have huf := compact_var_map_uf m flags m' h
  refine ⟨?_, ?_, ?_⟩
  · intro v1 v2
    unfold same_partition
    rw [huf]
  · intro flags' m'' h2 v1 v2
    have huf2 := compact_var_map_uf m' flags' m'' h2
    unfold same_partition
    rw [huf2, huf]
  · intro p2c c2p hp hc
    exact compact_var_map_tables m flags m' h p2c c2p hp hc

/-- Witness for `compact_var_map_membership` on the concrete map
`cex4` (whose used partitions are 1 and 3). -/
theorem compact_var_map_membership_witness :
    (same_partition cex4 1 2 ↔ same_partition cex4U 1 2) ∧
    cex4U.num_partitions = 2 := by
  obtain ⟨h1, _, h3⟩ :=
    compact_var_map_membership cex4 false cex4U rfl
  refine ⟨h1 1 2, ?_⟩
  obtain ⟨k1, _, _⟩ := h3 [none, some 0, none, some 1] [1, 3] rfl rfl
  simpa using k1.symm

/-! ### Liveness: monotonicity of the scan and the worklist -/

theorem live_le_refl (a : LiveInfo) : live_le a a :=
  ⟨fun _ => Finset.Subset.refl _, Finset.Subset.refl _⟩

theorem live_le_trans {a b c : LiveInfo} (h1 : live_le a b)
    (h2 : live_le b c) : live_le a c :=
  ⟨fun p => (h1.1 p).trans (h2.1 p), h1.2.trans h2.2⟩

theorem add_livein_le (m : VarMap) (live : LiveInfo) (sd : Finset Nat)
    (t : Tree) (s : Src) :
    live_le live (add_livein_if_notdef m live sd t s) := by
  unfold add_livein_if_notdef
  split
  · exact live_le_refl _
  · split
    · exact live_le_refl _
    · split
      · exact live_le_refl _
      · refine ⟨fun q => ?_, Finset.subset_insert _ _⟩
        dsimp only [updf]
        split
        · rename_i heqq
          subst heqq
          exact Finset.subset_insert _ _
        · exact Finset.Subset.refl _

theorem live_le_foldl {β : Type} (f : LiveInfo → β → LiveInfo)
    (hf : ∀ lv x, live_le lv (f lv x)) :
    ∀ (l : List β) (lv : LiveInfo), live_le lv (l.foldl f lv) := by
  intro l
  induction l with
  | nil => intro lv; exact live_le_refl _
  | cons x xs ih =>
      intro lv
      rw [List.foldl_cons]
      exact live_le_trans (hf lv x) (ih (f lv x))

theorem phi_args_step_le (P : Program) (m : VarMap) (sd : Finset Nat)
    (lv : LiveInfo) (a : PhiArg) :
    live_le lv (scan_phi_arg_step P m sd lv a) := by
  unfold scan_phi_arg_step
  split
  · exact live_le_refl _
  · split
    · exact add_livein_le m lv sd a.arg a.src
    · exact live_le_refl _

theorem uses_fold_le (m : VarMap) (bIdx : Nat) :
    ∀ (ops : List Tree) (acc : LiveInfo × Finset Nat),
    live_le acc.1 ((ops.foldl (fun (acc : LiveInfo × Finset Nat) op =>
      (add_livein_if_notdef m acc.1 acc.2 op (.blk bIdx), acc.2)) acc).1) ∧
    ((ops.foldl (fun (acc : LiveInfo × Finset Nat) op =>
      (add_livein_if_notdef m acc.1 acc.2 op (.blk bIdx), acc.2)) acc).2)
      = acc.2 := by
  intro ops
  induction ops with
  | nil => intro acc; exact ⟨live_le_refl _, rfl⟩
  | cons op rest ih =>
      intro acc
      rw [List.foldl_cons]
      obtain ⟨h1, h2⟩ := ih (add_livein_if_notdef m acc.1 acc.2 op
        (.blk bIdx), acc.2)
      exact ⟨live_le_trans (add_livein_le m acc.1 acc.2 op (.blk bIdx)) h1,
        h2⟩

theorem scan_stmt_step_le (m : VarMap) (bIdx : Nat)
    (ls : LiveInfo × Finset Nat) (st : Stmt) :
    live_le ls.1 (scan_stmt_step m bIdx ls st).1 := by
  unfold scan_stmt_step
  exact (uses_fold_le m bIdx st.uses ls).1

theorem stmts_fold_le (m : VarMap) (bIdx : Nat) :
    ∀ (sts : List Stmt) (ls : LiveInfo × Finset Nat),
    live_le ls.1 ((sts.foldl (scan_stmt_step m bIdx) ls).1) := by
  intro sts
  induction sts with
  | nil => intro ls; exact live_le_refl _
  | cons st rest ih =>
      intro ls
      rw [List.foldl_cons]
      exact live_le_trans (scan_stmt_step_le m bIdx ls st) (ih _)

theorem scan_phi_args_le (P : Program) (m : VarMap) (sd : Finset Nat)
    (live : LiveInfo) (phis : List Phi) :
    live_le live (scan_phi_args P m sd live phis) := by
  unfold scan_phi_args
  exact live_le_foldl _ (fun lv phi => live_le_foldl
    (scan_phi_arg_step P m sd)
    (fun lv a => phi_args_step_le P m sd lv a) phi.args lv) phis live

theorem scan_block_le (P : Program) (m : VarMap) (live : LiveInfo)
    (bIdx : Nat) (b : Block) :
    live_le live (scan_block P m live bIdx b) := by
  unfold scan_block
  exact live_le_trans (scan_phi_args_le P m ∅ live b.phis)
    (stmts_fold_le m bIdx b.stmts
      (scan_phi_args P m ∅ live b.phis, scan_phi_results m ∅ b.phis))

theorem scan_all_le (P : Program) (m : VarMap) (live : LiveInfo) :
    live_le live (scan_all P m live) := by
  unfold scan_all
  generalize P.blocks.enum = l
  induction l generalizing live with
  | nil => exact live_le_refl _
  | cons x xs ih =>
      rw [List.foldl_cons]
      exact live_le_trans (scan_block_le P m live x.1 x.2) (ih _)

theorem wl_process_facts (def_bb : Option Nat) :
    ∀ (ps : List Src) (lv : Finset Nat) (st : List Nat),
    lv ⊆ (wl_process def_bb ps lv st).1 ∧
    (∀ x ∈ st, x ∈ (wl_process def_bb ps lv st).2) ∧
    (∀ n ∈ (wl_process def_bb ps lv st).1,
      n ∈ lv ∨ n ∈ (wl_process def_bb ps lv st).2) ∧
    (∀ e ∈ ps, ∀ s, e = Src.blk s →
      some s = def_bb ∨ s ∈ (wl_process def_bb ps lv st).1) := by
  intro ps
  induction ps with
  | nil =>
      intro lv st
      exact ⟨Finset.Subset.refl _, fun x hx => hx, fun n hn => Or.inl hn,
        fun e he => absurd he (List.not_mem_nil e)⟩
  | cons e rest ih =>
      intro lv st
      unfold wl_process at ih ⊢
      rw [List.foldl_cons]
      rcases e with _ | s0
      · obtain ⟨h1, h2, h3, h4⟩ := ih lv st
        refine ⟨h1, h2, h3, fun e' he' s hs => ?_⟩
        rcases List.mem_cons.mp he' with rfl | he''
        · exact Src.noConfusion hs
        · exact h4 e' he'' s hs
      · by_cases hdef : some s0 = def_bb
        · rw [show wl_preds_step def_bb (lv, st) (Src.blk s0) = (lv, st) by
            simp [wl_preds_step, hdef]]
          obtain ⟨h1, h2, h3, h4⟩ := ih lv st
          refine ⟨h1, h2, h3, fun e' he' s hs => ?_⟩
          rcases List.mem_cons.mp he' with rfl | he''
          · obtain rfl := Src.blk.inj hs
            exact Or.inl hdef
          · exact h4 e' he'' s hs
        · by_cases hmem : s0 ∈ lv
          · rw [show wl_preds_step def_bb (lv, st) (Src.blk s0) = (lv, st) by
              simp [wl_preds_step, hdef, hmem]]
            obtain ⟨h1, h2, h3, h4⟩ := ih lv st
            refine ⟨h1, h2, h3, fun e' he' s hs => ?_⟩
            rcases List.mem_cons.mp he' with rfl | he''
            · obtain rfl := Src.blk.inj hs
              exact Or.inr (h1 hmem)
            · exact h4 e' he'' s hs
          · rw [show wl_preds_step def_bb (lv, st) (Src.blk s0) =
                (insert s0 lv, s0 :: st) by
              simp [wl_preds_step, hdef, hmem]]
            obtain ⟨h1, h2, h3, h4⟩ := ih (insert s0 lv) (s0 :: st)
            refine ⟨fun y hy => h1 (Finset.mem_insert_of_mem hy),
              fun x hx => h2 x (List.mem_cons_of_mem _ hx),
              fun n hn => ?_, fun e' he' s hs => ?_⟩
            · rcases h3 n hn with hn' | hn'
              · rcases Finset.mem_insert.mp hn' with rfl | hn''
                · exact Or.inr (h2 n (by simp))
                · exact Or.inl hn''
              · exact Or.inr hn'
            · rcases List.mem_cons.mp he' with rfl | he''
              · obtain rfl := Src.blk.inj hs
                exact Or.inr (h1 (Finset.mem_insert_self _ _))
              · exact h4 e' he'' s hs

theorem src_fold_mono : ∀ (ps : List Src) (init : Finset Nat) (x : Nat),
    x ∈ init → x ∈ ps.foldl (fun s e => match e with
      | Src.entry => s
      | Src.blk n => insert n s) init := by
  intro ps
  induction ps with
  | nil => intro init x hx; exact hx
  | cons e rest ih =>
      intro init x hx
      rw [List.foldl_cons]
      refine ih _ x ?_
      rcases e with _ | n
      · exact hx
      · exact Finset.mem_insert_of_mem hx

theorem src_fold_mem : ∀ (ps : List Src) (init : Finset Nat) (s : Nat),
    Src.blk s ∈ ps → s ∈ ps.foldl (fun acc e => match e with
      | Src.entry => acc
      | Src.blk n => insert n acc) init := by
  intro ps
  induction ps with
  | nil => intro init s hs; exact absurd hs (List.not_mem_nil _)
  | cons e rest ih =>
      intro init s hs
      rw [List.foldl_cons]
      rcases List.mem_cons.mp hs with rfl | hs'
      · exact src_fold_mono rest _ s (Finset.mem_insert_self _ _)
      · exact ih _ s hs'

theorem blocks_fold_mono : ∀ (bs : List Block) (init : Finset Nat) (x : Nat),
    x ∈ init → x ∈ bs.foldl (fun s b => b.preds.foldl (fun s e =>
      match e with
      | Src.entry => s
      | Src.blk n => insert n s) s) init := by
  intro bs
  induction bs with
  | nil => intro init x hx; exact hx
  | cons b rest ih =>
      intro init x hx
      rw [List.foldl_cons]
      exact ih _ x (src_fold_mono b.preds init x hx)

theorem blocks_fold_mem : ∀ (bs : List Block) (init : Finset Nat)
    (bl : Block), bl ∈ bs → ∀ s, Src.blk s ∈ bl.preds →
    s ∈ bs.foldl (fun acc b => b.preds.foldl (fun acc e =>
      match e with
      | Src.entry => acc
      | Src.blk n => insert n acc) acc) init := by
  intro bs
  induction bs with
  | nil => intro init bl hbl; exact absurd hbl (List.not_mem_nil _)
  | cons b rest ih =>
      intro init bl hbl s hs
      rw [List.foldl_cons]
      rcases List.mem_cons.mp hbl with rfl | hbl'
      · exact blocks_fold_mono rest _ s (src_fold_mem bl.preds init s hs)
      · exact ih _ bl hbl' s hs

theorem wl_universe_mem (P : Program) (b s : Nat)
    (hs : Src.blk s ∈ (wl_block P b).preds) : s ∈ wl_universe P := by
  unfold wl_block at hs
  rcases Nat.lt_or_ge b P.blocks.length with hb | hb
  · rw [List.getD_eq_getElem?_getD, List.getElem?_eq_getElem hb] at hs
    exact blocks_fold_mem P.blocks ∅ _ (List.getElem_mem hb) s hs
  · rw [List.getD_eq_default _ _ hb] at hs
    exact absurd hs (List.not_mem_nil _)

theorem wl_process_measure (u : Finset Nat) (def_bb : Option Nat) :
    ∀ (ps : List Src) (lv : Finset Nat) (st : List Nat),
    (∀ s, Src.blk s ∈ ps → s ∈ u) →
    wl_measure u (wl_process def_bb ps lv st).1
      (wl_process def_bb ps lv st).2 ≤ wl_measure u lv st := by
  intro ps
  induction ps with
  | nil => intro lv st _; exact Nat.le_refl _
  | cons e rest ih =>
      intro lv st hu
      unfold wl_process at ih ⊢
      rw [List.foldl_cons]
      rcases e with _ | s0
      · exact ih lv st (fun s hs => hu s (List.mem_cons_of_mem _ hs))
      · by_cases hdef : some s0 = def_bb
        · rw [show wl_preds_step def_bb (lv, st) (Src.blk s0) = (lv, st) by
            simp [wl_preds_step, hdef]]
          exact ih lv st (fun s hs => hu s (List.mem_cons_of_mem _ hs))
        · by_cases hmem : s0 ∈ lv
          · rw [show wl_preds_step def_bb (lv, st) (Src.blk s0) = (lv, st) by
              simp [wl_preds_step, hdef, hmem]]
            exact ih lv st (fun s hs => hu s (List.mem_cons_of_mem _ hs))
          · rw [show wl_preds_step def_bb (lv, st) (Src.blk s0) =
                (insert s0 lv, s0 :: st) by
              simp [wl_preds_step, hdef, hmem]]
            refine Nat.le_trans (ih (insert s0 lv) (s0 :: st)
              (fun s hs => hu s (List.mem_cons_of_mem _ hs))) ?_
            unfold wl_measure
            have hs0u : s0 ∈ u := hu s0 (by simp)
            have : u \ insert s0 lv = (u \ lv).erase s0 := by
              ext y
              simp only [Finset.mem_sdiff, Finset.mem_insert,
                Finset.mem_erase]
              tauto
            rw [this]
            have hcard : ((u \ lv).erase s0).card = (u \ lv).card - 1 :=
              Finset.card_erase_of_mem (Finset.mem_sdiff.mpr ⟨hs0u, hmem⟩)
            have hpos : 0 < (u \ lv).card :=
              Finset.card_pos.mpr ⟨s0, Finset.mem_sdiff.mpr ⟨hs0u, hmem⟩⟩
            simp only [List.length_cons]
            omega

theorem wl_closed_mono (P : Program) (def_bb : Option Nat) (b : Nat)
    (lv lv' : Finset Nat) (hsub : lv ⊆ lv')
    (h : wl_closed P def_bb b lv) : wl_closed P def_bb b lv' := by
  intro e he s hs
  rcases h e he s hs with h1 | h1
  · exact Or.inl h1
  · exact Or.inr (hsub h1)

theorem wl_loop_supset (P : Program) (def_bb : Option Nat) :
    ∀ (fuel : Nat) (lv : Finset Nat) (stack : List Nat),
    lv ⊆ wl_loop P def_bb fuel lv stack := by
  intro fuel
  induction fuel with
  | zero => intro lv stack; exact Finset.Subset.refl _
  | succ k ih =>
      intro lv stack
      rcases stack with _ | ⟨b, rest⟩
      · exact Finset.Subset.refl _
      · exact Finset.Subset.trans
          (wl_process_facts def_bb (wl_block P b).preds lv rest).1 (ih _ _)

/-- Once the worklist drains, every block with its bit set is closed
under non-entry, non-defining-block predecessors. -/
theorem wl_loop_post (P : Program) (def_bb : Option Nat) :
    ∀ (fuel : Nat) (lv : Finset Nat) (stack : List Nat),
    wl_measure (wl_universe P) lv stack < fuel →
    (∀ b ∈ lv, b ∈ stack ∨ wl_closed P def_bb b lv) →
    ∀ b ∈ wl_loop P def_bb fuel lv stack,
      wl_closed P def_bb b (wl_loop P def_bb fuel lv stack) := by
  intro fuel
  induction fuel with
  | zero =>
      intro lv stack hm
      exact absurd hm (Nat.not_lt_zero _)
  | succ k ih =>
      intro lv stack hm hinv
      rcases stack with _ | ⟨b0, rest⟩
      · intro b hb
        rcases hinv b hb with h1 | h1
        · exact absurd h1 (List.not_mem_nil _)
        · exact h1
      · show ∀ b ∈ wl_loop P def_bb k _ _, _
        obtain ⟨f1, f2, f3, f4⟩ :=
          wl_process_facts def_bb (wl_block P b0).preds lv rest
        have hmeas := wl_process_measure (wl_universe P) def_bb
          (wl_block P b0).preds lv rest
          (fun s hs => wl_universe_mem P b0 s hs)
        refine ih _ _ ?_ ?_
        · have : wl_measure (wl_universe P) lv (b0 :: rest) =
              wl_measure (wl_universe P) lv rest + 1 := by
            unfold wl_measure
            simp only [List.length_cons]
            omega
          omega
        · intro n hn
          rcases f3 n hn with hn' | hn'
          · rcases hinv n (by exact hn') with hn'' | hn''
            · rcases List.mem_cons.mp hn'' with rfl | hn3
              · exact Or.inr (f4 · · · ·)
              · exact Or.inl (f2 n hn3)
            · exact Or.inr (wl_closed_mono P def_bb n lv _ f1 hn'')
          · exact Or.inl hn'

theorem foldl_cons_mem : ∀ (l : List Nat) (init : List Nat) (x : Nat),
    x ∈ l ∨ x ∈ init → x ∈ l.foldl (fun st b => b :: st) init := by
  intro l
  induction l with
  | nil =>
      intro init x hx
      rcases hx with hx | hx
      · exact absurd hx (List.not_mem_nil _)
      · exact hx
  | cons b rest ih =>
      intro init x hx
      rw [List.foldl_cons]
      refine ih _ x ?_
      rcases hx with hx | hx
      · rcases List.mem_cons.mp hx with rfl | hx'
        · exact Or.inr (by simp)
        · exact Or.inl hx'
      · exact Or.inr (List.mem_cons_of_mem _ hx)

/-- After `live_worklist` for partition `i`, partition `i`'s
live-on-entry set is predecessor-closed. -/
theorem live_worklist_post (P : Program) (m : VarMap) (live : LiveInfo)
    (i : Nat) :
    ∀ b ∈ (live_worklist P m live i).livein i,
      wl_closed P (wl_def_bb P m i) b
        ((live_worklist P m live i).livein i) := by
  unfold live_worklist
  simp only [updf, if_pos rfl]
  refine wl_loop_post P (wl_def_bb P m i) _ _ _ (Nat.lt_succ_self _) ?_
  intro b hb
  rcases Nat.lt_or_ge b P.blocks.length with hblt | hbge
  · refine Or.inl (foldl_cons_mem _ [] b (Or.inl ?_))
    rw [List.mem_filter]
    exact ⟨List.mem_range.mpr hblt, by simpa using hb⟩
  · refine Or.inr ?_
    intro e he s hs
    unfold wl_block at he
    rw [List.getD_eq_default _ _ hbge] at he
    exact absurd he (List.not_mem_nil _)

/-- `live_worklist` for `i` does not touch any other partition's
live-on-entry set, nor the global bitmap. -/
theorem live_worklist_other (P : Program) (m : VarMap) (live : LiveInfo)
    (i q : Nat) (hq : q ≠ i) :
    (live_worklist P m live i).livein q = live.livein q ∧
    (live_worklist P m live i).global = live.global := by
  unfold live_worklist
  exact ⟨by simp [updf, hq], rfl⟩

theorem add_livein_inv (m : VarMap) (live : LiveInfo) (sd : Finset Nat)
    (t : Tree) (s : Src) (h : livein_global_inv live) :
    livein_global_inv (add_livein_if_notdef m live sd t s) := by
  unfold add_livein_if_notdef
  split
  · exact h
  · split
    · exact h
    · split
      · exact h
      · intro q hq
        dsimp only [updf] at hq ⊢
        split at hq
        · rename_i hqp
          subst hqp
          exact Finset.mem_insert_self _ _
        · exact Finset.mem_insert_of_mem (h q hq)

theorem scan_phi_args_inv (P : Program) (m : VarMap) (sd : Finset Nat) :
    ∀ (phis : List Phi) (live : LiveInfo), livein_global_inv live →
    livein_global_inv (scan_phi_args P m sd live phis) := by
  have harg : ∀ (args : List PhiArg) (live : LiveInfo),
      livein_global_inv live →
      livein_global_inv (args.foldl (scan_phi_arg_step P m sd) live) := by
    intro args
    induction args with
    | nil => intro live h; exact h
    | cons a rest ih =>
        intro live h
        rw [List.foldl_cons]
        refine ih _ ?_
        unfold scan_phi_arg_step
        split
        · exact h
        · split
          · exact add_livein_inv m live sd a.arg a.src h
          · exact h
  intro phis
  induction phis with
  | nil => intro live h; exact h
  | cons phi rest ih =>
      intro live h
      unfold scan_phi_args at ih ⊢
      rw [List.foldl_cons]
      exact ih _ (harg phi.args live h)

theorem scan_stmts_inv (m : VarMap) (bIdx : Nat) :
    ∀ (sts : List Stmt) (ls : LiveInfo × Finset Nat),
    livein_global_inv ls.1 →
    livein_global_inv ((sts.foldl (scan_stmt_step m bIdx) ls).1) := by
  have huse : ∀ (ops : List Tree) (acc : LiveInfo × Finset Nat),
      livein_global_inv acc.1 →
      livein_global_inv ((ops.foldl (fun (acc : LiveInfo × Finset Nat) op =>
        (add_livein_if_notdef m acc.1 acc.2 op (.blk bIdx), acc.2))
        acc).1) := by
    intro ops
    induction ops with
    | nil => intro acc h; exact h
    | cons op rest ih =>
        intro acc h
        rw [List.foldl_cons]
        exact ih _ (add_livein_inv m acc.1 acc.2 op (.blk bIdx) h)
  intro sts
  induction sts with
  | nil => intro ls h; exact h
  | cons st rest ih =>
      intro ls h
      rw [List.foldl_cons]
      refine ih _ ?_
      unfold scan_stmt_step
      exact huse st.uses ls h

theorem scan_all_inv (P : Program) (m : VarMap) :
    livein_global_inv (scan_all P m new_tree_live_info) := by
  unfold scan_all
  have h0 : livein_global_inv new_tree_live_info := by
    intro p hp
    exact absurd hp (by simp [new_tree_live_info])
  generalize new_tree_live_info = live at h0 ⊢
  generalize P.blocks.enum = l
  induction l generalizing live with
  | nil => exact h0
  | cons ib rest ih =>
      rw [List.foldl_cons]
      refine ih _ ?_
      unfold scan_block
      exact scan_stmts_inv m ib.1 ib.2.stmts _
        (scan_phi_args_inv P m ∅ ib.2.phis live h0)

/-- The worklist pass over a nodup list of partitions: untouched
partitions keep their bitmaps, processed partitions end
predecessor-closed. -/
theorem worklist_fold_char (P : Program) (m : VarMap) :
    ∀ (l : List Nat) (lv : LiveInfo), l.Nodup →
    (∀ q, q ∉ l →
      (l.foldl (fun a i => live_worklist P m a i) lv).livein q =
        lv.livein q) ∧
    (∀ q ∈ l, ∀ b ∈ (l.foldl (fun a i => live_worklist P m a i) lv).livein q,
      wl_closed P (wl_def_bb P m q) b
        ((l.foldl (fun a i => live_worklist P m a i) lv).livein q)) := by
  intro l
  induction l with
  | nil =>
      intro lv _
      exact ⟨fun q _ => rfl, fun q hq => absurd hq (List.not_mem_nil _)⟩
  | cons i rest ih =>
      intro lv hnd
      obtain ⟨hni, hnd'⟩ := List.nodup_cons.mp hnd
      obtain ⟨k1, k2⟩ := ih (live_worklist P m lv i) hnd'
      rw [List.foldl_cons]
      refine ⟨?_, ?_⟩
      · intro q hq
        have hq1 : q ∉ rest := fun hc => hq (List.mem_cons_of_mem _ hc)
        have hq2 : q ≠ i := fun hc => hq (hc ▸ List.mem_cons_self i rest)
        rw [k1 q hq1, (live_worklist_other P m lv i q hq2).1]
      · intro q hq b hb
        rcases List.mem_cons.mp hq with rfl | hq'
        · rw [k1 q hni] at hb ⊢
          exact live_worklist_post P m lv q b hb
        · exact k2 q hq' b hb

/-- C2.  After `calculate_live_on_entry`, each partition's live-on-entry
set is closed under predecessors: for every partition `p` (in the
partition range) and every block `b` live-on-entry for `p`, every
predecessor block `s` of `b` (the entry pseudo-block, `Src.entry`,
is not a block) either is the block containing the defining statement
of `p`'s representative SSA version, or itself has `p`
live-on-entry. -/
theorem calculate_live_on_entry_closed (P : Program) (m : VarMap)
    (p b : Nat) (hp : p < num_var_partitions m)
    (hmem : b ∈ (calculate_live_on_entry P m).livein p) :
    ∀ e ∈ (wl_block P b).preds, ∀ s, e = Src.blk s →
      some s = wl_def_bb P m p ∨
      s ∈ (calculate_live_on_entry P m).livein p := by
  intro e he s hs
  unfold calculate_live_on_entry at hmem ⊢
  have hnd : ((List.range (num_var_partitions m)).filter
      (fun i => decide (i ∈ (scan_all P m new_tree_live_info).global))).Nodup :=
    (List.nodup_range _).filter _
  obtain ⟨k1, k2⟩ := worklist_fold_char P m _ (scan_all P m new_tree_live_info)
    hnd
  by_cases hpg : p ∈ (scan_all P m new_tree_live_info).global
  · have hpl : p ∈ (List.range (num_var_partitions m)).filter
        (fun i => decide (i ∈ (scan_all P m new_tree_live_info).global)) := by
      rw [List.mem_filter]
      exact ⟨List.mem_range.mpr hp, by simpa using hpg⟩
    exact k2 p hpl b hmem e he s hs
  · have hpl : p ∉ (List.range (num_var_partitions m)).filter
        (fun i => decide (i ∈ (scan_all P m new_tree_live_info).global)) := by
      rw [List.mem_filter]
      intro hc
      exact hpg (by simpa using hc.2)
    rw [k1 p hpl] at hmem
    have := scan_all_inv P m p ⟨b, hmem⟩
    exact absurd this hpg

/-! ### Liveness: the initial scan marks qualifying phi arguments -/

theorem add_livein_marks (m : VarMap) (live : LiveInfo) (sd : Finset Nat)
    (t : Tree) (s p : Nat) (hp : var_to_partition m t = some p)
    (hnot : p ∉ sd) :
    s ∈ (add_livein_if_notdef m live sd t (.blk s)).livein p ∧
    p ∈ (add_livein_if_notdef m live sd t (.blk s)).global := by
  unfold add_livein_if_notdef
  rw [hp]
  dsimp only
  rw [if_neg hnot]
  dsimp only [updf]
  exact ⟨by simp, Finset.mem_insert_self _ _⟩

theorem args_fold_marks (P : Program) (m : VarMap) (sd : Finset Nat) :
    ∀ (args : List PhiArg) (lv : LiveInfo) (a : PhiArg), a ∈ args →
    phi_ssa_name a.arg = true →
    phi_arg_live_cond P a.arg.version a.src = true →
    ∀ s p, a.src = Src.blk s → var_to_partition m a.arg = some p →
    p ∉ sd →
    s ∈ ((args.foldl (scan_phi_arg_step P m sd) lv)).livein p ∧
    p ∈ ((args.foldl (scan_phi_arg_step P m sd) lv)).global := by
  intro args
  induction args with
  | nil =>
      intro lv a ha
      exact absurd ha (List.not_mem_nil _)
  | cons hd tl ih =>
      intro lv a ha hssa hcond s p hsrc hp hnot
      rw [List.foldl_cons]
      rcases List.mem_cons.mp ha with rfl | ha'
      · have hstep : scan_phi_arg_step P m sd lv a =
            add_livein_if_notdef m lv sd a.arg a.src := by
          unfold scan_phi_arg_step
          rw [if_neg (by simp [hssa]), if_pos hcond]
        rw [hstep, hsrc]
        obtain ⟨h1, h2⟩ := add_livein_marks m lv sd a.arg s p hp hnot
        have hle := live_le_foldl (scan_phi_arg_step P m sd)
          (fun lv a => phi_args_step_le P m sd lv a) tl
          (add_livein_if_notdef m lv sd a.arg (.blk s))
        exact ⟨hle.1 p h1, hle.2 h2⟩
      · exact ih _ a ha' hssa hcond s p hsrc hp hnot

theorem phis_fold_marks (P : Program) (m : VarMap) (sd : Finset Nat) :
    ∀ (phis : List Phi) (lv : LiveInfo) (phi : Phi), phi ∈ phis →
    ∀ a ∈ phi.args, phi_ssa_name a.arg = true →
    phi_arg_live_cond P a.arg.version a.src = true →
    ∀ s p, a.src = Src.blk s → var_to_partition m a.arg = some p →
    p ∉ sd →
    s ∈ (scan_phi_args P m sd lv phis).livein p ∧
    p ∈ (scan_phi_args P m sd lv phis).global := by
  intro phis
  induction phis with
  | nil =>
      intro lv phi hphi
      exact absurd hphi (List.not_mem_nil _)
  | cons hd tl ih =>
      intro lv phi hphi a ha hssa hcond s p hsrc hp hnot
      unfold scan_phi_args at ih ⊢
      rw [List.foldl_cons]
      rcases List.mem_cons.mp hphi with rfl | hphi'
      · obtain ⟨h1, h2⟩ :=
          args_fold_marks P m sd phi.args lv a ha hssa hcond s p hsrc hp hnot
        have hle := live_le_foldl
          (fun lv phi => phi.args.foldl (scan_phi_arg_step P m sd) lv)
          (fun lv phi => live_le_foldl (scan_phi_arg_step P m sd)
            (fun lv a => phi_args_step_le P m sd lv a) phi.args lv) tl
          (phi.args.foldl (scan_phi_arg_step P m sd) lv)
        exact ⟨hle.1 p h1, hle.2 h2⟩
      · exact ih _ phi hphi' a ha hssa hcond s p hsrc hp hnot

theorem scan_block_marks (P : Program) (m : VarMap) (live : LiveInfo)
    (bIdx : Nat) (b : Block) (phi : Phi) (hphi : phi ∈ b.phis)
    (a : PhiArg) (ha : a ∈ phi.args) (hssa : phi_ssa_name a.arg = true)
    (hcond : phi_arg_live_cond P a.arg.version a.src = true)
    (s p : Nat) (hsrc : a.src = Src.blk s)
    (hp : var_to_partition m a.arg = some p) :
    s ∈ (scan_block P m live bIdx b).livein p ∧
    p ∈ (scan_block P m live bIdx b).global := by
  obtain ⟨h1, h2⟩ := phis_fold_marks P m ∅ b.phis live phi hphi a ha hssa
    hcond s p hsrc hp (Finset.not_mem_empty p)
  unfold scan_block
  have hle := stmts_fold_le m bIdx b.stmts
    (scan_phi_args P m ∅ live b.phis, scan_phi_results m ∅ b.phis)
  exact ⟨hle.1 p h1, hle.2 h2⟩

theorem scan_fold_le (P : Program) (m : VarMap) :
    ∀ (l : List (Nat × Block)) (live : LiveInfo),
    live_le live (l.foldl (fun lv ib => scan_block P m lv ib.1 ib.2) live) := by
  intro l
  induction l with
  | nil => intro live; exact live_le_refl _
  | cons x xs ih =>
      intro live
      rw [List.foldl_cons]
      exact live_le_trans (scan_block_le P m live x.1 x.2) (ih _)

theorem scan_all_marks (P : Program) (m : VarMap) (live : LiveInfo)
    (bIdx : Nat) (b : Block) (hb : (bIdx, b) ∈ P.blocks.enum)
    (phi : Phi) (hphi : phi ∈ b.phis)
    (a : PhiArg) (ha : a ∈ phi.args) (hssa : phi_ssa_name a.arg = true)
    (hcond : phi_arg_live_cond P a.arg.version a.src = true)
    (s p : Nat) (hsrc : a.src = Src.blk s)
    (hp : var_to_partition m a.arg = some p) :
    s ∈ (scan_all P m live).livein p ∧ p ∈ (scan_all P m live).global := by
  obtain ⟨l1, l2, hsplit⟩ := List.append_of_mem hb
  unfold scan_all
  rw [hsplit, List.foldl_append, List.foldl_cons]
  obtain ⟨h1, h2⟩ := scan_block_marks P m
    (l1.foldl (fun lv ib => scan_block P m lv ib.1 ib.2) live) bIdx b
    phi hphi a ha hssa hcond s p hsrc hp
  have hle := scan_fold_le P m l2 (scan_block P m
    (l1.foldl (fun lv ib => scan_block P m lv ib.1 ib.2) live) bIdx b)
  exact ⟨hle.1 p h1, hle.2 h2⟩

theorem live_worklist_le (P : Program) (m : VarMap) (live : LiveInfo)
    (i : Nat) : live_le live (live_worklist P m live i) := by
  unfold live_worklist
  refine ⟨fun q => ?_, Finset.Subset.refl _⟩
  dsimp only [updf]
  split
  · rename_i hq
    subst hq
    exact wl_loop_supset P _ _ _ _
  · exact Finset.Subset.refl _

theorem worklist_fold_le (P : Program) (m : VarMap) :
    ∀ (l : List Nat) (live : LiveInfo),
    live_le live (l.foldl (fun a i => live_worklist P m a i) live) := by
  intro l
  induction l with
  | nil => intro live; exact live_le_refl _
  | cons i rest ih =>
      intro live
      rw [List.foldl_cons]
      exact live_le_trans (live_worklist_le P m live i) (ih _)

/-- A phi argument that has no defining statement, or whose definition
lies outside the edge-source block, has its edge source marked
live-on-entry for its partition (and the partition marked global) by
`calculate_live_on_entry`. -/
theorem calc_live_marks (P : Program) (m : VarMap)
    (bIdx : Nat) (b : Block) (hb : (bIdx, b) ∈ P.blocks.enum)
    (phi : Phi) (hphi : phi ∈ b.phis)
    (a : PhiArg) (ha : a ∈ phi.args) (hssa : phi_ssa_name a.arg = true)
    (hcond : phi_arg_live_cond P a.arg.version a.src = true)
    (s p : Nat) (hsrc : a.src = Src.blk s)
    (hp : var_to_partition m a.arg = some p) :
    s ∈ (calculate_live_on_entry P m).livein p ∧
    p ∈ (calculate_live_on_entry P m).global := by
  obtain ⟨h1, h2⟩ := scan_all_marks P m new_tree_live_info bIdx b hb
    phi hphi a ha hssa hcond s p hsrc hp
  unfold calculate_live_on_entry
  have hle := worklist_fold_le P m
    ((List.range (num_var_partitions m)).filter
      (fun i => decide (i ∈ (scan_all P m new_tree_live_info).global)))
    (scan_all P m new_tree_live_info)
  exact ⟨hle.1 p h1, hle.2 h2⟩

/-- C5.  In the initial scan of `calculate_live_on_entry`, every phi
argument `(v, e)` whose SSA version has no defining statement or is
defined in a block other than `e.src` is marked live-on-entry at
`e.src` and added to the global set, provided `v` is in a partition
(entry-block sources are skipped; during the phi loop the block's
`saw_def` set is still empty, so no phi argument is suppressed by
it).  The marks persist into the final live info. -/
theorem calculate_live_on_entry_phi_arg (P : Program) (m : VarMap)
    (bIdx : Nat) (b : Block) (hb : (bIdx, b) ∈ P.blocks.enum)
    (phi : Phi) (hphi : phi ∈ b.phis)
    (a : PhiArg) (ha : a ∈ phi.args) (hssa : phi_ssa_name a.arg = true)
    (hcond : phi_arg_live_cond P a.arg.version a.src = true)
    (s p : Nat) (hsrc : a.src = Src.blk s)
    (hp : var_to_partition m a.arg = some p) :
    s ∈ (calculate_live_on_entry P m).livein p ∧
    p ∈ (calculate_live_on_entry P m).global :=
  calc_live_marks P m bIdx b hb phi hphi a ha hssa hcond s p hsrc hp

/-- Witness for `calculate_live_on_entry_phi_arg`: in the example
program, `a_1` (a default definition) arriving at the phi of block 2
from block 0 is marked live-on-entry at block 0. -/
theorem calculate_live_on_entry_phi_arg_witness :
    (0 : Nat) ∈ (calculate_live_on_entry lvProg lvMap).livein 1 ∧
    (1 : Nat) ∈ (calculate_live_on_entry lvProg lvMap).global :=
  calculate_live_on_entry_phi_arg lvProg lvMap 2
    ⟨[lvPhiA, lvPhiB], [], [.blk 0, .blk 1]⟩ (by decide)
    lvPhiA (by decide) ⟨lvA1, .blk 0⟩ (by decide) rfl rfl 0 1 rfl rfl

/-- C3.  The two-pass phi handling: phi results enter `saw_def` only
after all of the block's phi arguments were scanned, so an argument
of a later phi that names an earlier phi's result of the same block
— whose defining statement therefore lies in this very block — is
treated as a value incoming on its edge: its edge source (a block
other than this one) is marked live-on-entry for its partition, not
suppressed as locally defined. -/
theorem phi_arg_two_pass (P : Program) (m : VarMap)
    (bIdx : Nat) (b : Block) (hb : (bIdx, b) ∈ P.blocks.enum)
    (l1 l2 : List Phi) (phiE phi : Phi)
    (hsplit : b.phis = l1 ++ phiE :: l2) (hphi : phi ∈ l2)
    (a : PhiArg) (ha : a ∈ phi.args) (hres : a.arg = phiE.result)
    (hssa : phi_ssa_name a.arg = true)
    (hdef : P.defstmt a.arg.version = some (some bIdx))
    (s : Nat) (hsrc : a.src = Src.blk s) (hne : s ≠ bIdx)
    (p : Nat) (hp : var_to_partition m a.arg = some p) :
    s ∈ (calculate_live_on_entry P m).livein p ∧
    p ∈ (calculate_live_on_entry P m).global := by
  have hcond : phi_arg_live_cond P a.arg.version a.src = true := by
    unfold phi_arg_live_cond
    rw [hdef, hsrc]
    simpa using hne
  have hphi' : phi ∈ b.phis := by
    rw [hsplit]
    exact List.mem_append_right _ (List.mem_cons_of_mem _ hphi)
  exact calc_live_marks P m bIdx b hb phi hphi' a ha hssa hcond s p hsrc hp

/-- Witness for `phi_arg_two_pass`: in the example program's block 2,
the second phi `b_3 = PHI <b_1, a_3>` names the first phi's result
`a_3` (defined in block 2 itself); the argument is marked
live-on-entry at its edge source, block 1. -/
theorem phi_arg_two_pass_witness :
    (1 : Nat) ∈ (calculate_live_on_entry lvProg lvMap).livein 3 ∧
    (3 : Nat) ∈ (calculate_live_on_entry lvProg lvMap).global :=
  phi_arg_two_pass lvProg lvMap 2
    ⟨[lvPhiA, lvPhiB], [], [.blk 0, .blk 1]⟩ (by decide)
    [] [lvPhiB] lvPhiA lvPhiB rfl (by decide)
    ⟨lvA3, .blk 1⟩ (by decide) rfl rfl rfl 1 rfl (by decide) 3 rfl

/-- Witness for `calculate_live_on_entry_closed`: in the example
program, partition 3 (`a_3`, used as a phi argument arriving from
block 1) is live-on-entry at block 1, whose predecessor block 0 is
neither the defining block nor the entry block, so closure places 0
in `livein 3` as well. -/
theorem calculate_live_on_entry_closed_witness :
    some 0 = wl_def_bb lvProg lvMap 3 ∨
    (0 : Nat) ∈ (calculate_live_on_entry lvProg lvMap).livein 3 :=
  calculate_live_on_entry_closed lvProg lvMap 3 1 (by decide) (by decide)
    (Src.blk 0) (by decide) 0 rfl

/-! ### type_var_init: excluded partitions appear in no class -/

theorem opt_fold_inv {σ : Type} (f : σ → Nat → Option σ) (P : σ → Prop)
    (hf : ∀ s x s', P s → f s x = some s' → P s') :
    ∀ (l : List Nat) (s s' : σ), P s → opt_fold f s l = some s' → P s' := by
  intro l
  induction l with
  | nil =>
      intro s s' hs h
      simp only [opt_fold, Option.some.injEq] at h
      exact h ▸ hs
  | cons x xs ih =>
      intro s s' hs h
      simp only [opt_fold] at h
      rcases hfx : f s x with _ | s1
      · rw [hfx] at h; exact absurd h (by simp)
      · rw [hfx] at h
        exact ih s1 s' (hf s x s1 hs hfx) h

theorem tpa_chase_mem (next : List (Option Nat)) :
    ∀ (fuel : Nat) (st : Option Nat) (q : Nat), q ∈ tpa_chase next fuel st →
    st = some q ∨ ∃ r, next.getD r none = some q := by
  intro fuel
  induction fuel with
  | zero =>
      intro st q hq
      cases st with
      | none => exact absurd hq (List.not_mem_nil _)
      | some p =>
          left
          simp only [tpa_chase, List.mem_singleton] at hq
          exact hq ▸ rfl
  | succ k ih =>
      intro st q hq
      cases st with
      | none => exact absurd hq (List.not_mem_nil _)
      | some p =>
          simp only [tpa_chase] at hq
          rcases List.mem_cons.mp hq with rfl | hq'
          · exact Or.inl rfl
          · rcases ih _ q hq' with h | h
            · exact Or.inr ⟨p, h⟩
            · exact Or.inr h

theorem getD_append_single {α : Type} :
    ∀ (l : List α) (a d : α) (j : Nat),
    (l ++ [a]).getD j d = l.getD j d ∨ (l ++ [a]).getD j d = a := by
  intro l
  induction l with
  | nil =>
      intro a d j
      cases j with
      | zero => exact Or.inr rfl
      | succ n =>
          left
          rw [List.nil_append, List.getD_cons_succ]
          cases n <;> rfl
  | cons x xs ih =>
      intro a d j
      cases j with
      | zero => exact Or.inl rfl
      | succ n =>
          rw [List.cons_append, List.getD_cons_succ, List.getD_cons_succ]
          exact ih a d n

theorem getD_set_elim {α : Type} (l : List α) (i j : Nat) (a d : α) :
    (l.set i a).getD j d = a ∨ (l.set i a).getD j d = l.getD j d := by
  rcases eq_or_ne i j with rfl | h
  · rcases Nat.lt_or_ge i l.length with hlt | hge
    · exact Or.inl (getD_set_self l i a d hlt)
    · right
      rw [List.set_eq_of_length_le hge]
  · exact Or.inr (getD_set_ne l i j a d h)

theorem type_var_step_inv (m : VarMap) (ts : Tpa × Finset Nat) (x : Nat)
    (s' : Tpa × Finset Nat) (hinv : tpa_inv m ts)
    (h : type_var_step m ts x = some s') : tpa_inv m s' := by
  obtain ⟨tv, seen⟩ := ts
  obtain ⟨h1, h2, h3⟩ := hinv
  simp only [type_var_step] at h
  rcases hx : partition_to_var m x with _ | t
  all_goals rw [hx] at h
  · simp only [Option.some.injEq] at h
    exact h ▸ ⟨h1, h2, h3⟩
  · dsimp only at h
    split at h
    · simp only [Option.some.injEq] at h
      exact h ▸ ⟨h1, h2, h3⟩
    · rename_i hdall
      rw [Bool.not_eq_true] at hdall
      rcases hp : var_to_partition m t with _ | p
      all_goals rw [hp] at h
      · exact absurd h (by simp)
      · dsimp only at h
        split at h
        · simp only [Option.some.injEq] at h
          exact h ▸ ⟨h1, h2, h3⟩
        · rename_i hseen
          have hgood : tv_good m p := ⟨x, t, hx, hdall, hp⟩
          rcases hfind : (List.range tv.num_trees).find?
              (fun y => tv.trees.getD y (Sum.inr 0) = Sum.inr t.ty) with
            _ | y
          all_goals rw [hfind] at h
          · simp only [Option.some.injEq] at h
            subst h
            refine ⟨?_, ?_, ?_⟩
            · intro q hq
              rcases Finset.mem_insert.mp hq with rfl | hq'
              · exact hgood
              · exact h1 q hq'
            · intro ti s hfp
              unfold tpa_first_partition at hfp
              dsimp only at hfp
              rcases getD_append_single tv.first_partition (some p) none
                  ti with he | he
              · rw [he] at hfp
                exact Finset.mem_insert_of_mem (h2 ti s hfp)
              · rw [he] at hfp
                cases hfp
                exact Finset.mem_insert_self _ _
            · intro q r hn
              dsimp only at hn
              exact Finset.mem_insert_of_mem (h3 q r hn)
          · simp only [Option.some.injEq] at h
            subst h
            refine ⟨?_, ?_, ?_⟩
            · intro q hq
              rcases Finset.mem_insert.mp hq with rfl | hq'
              · exact hgood
              · exact h1 q hq'
            · intro ti s hfp
              unfold tpa_first_partition at hfp
              dsimp only at hfp
              rcases getD_set_elim tv.first_partition y ti (some p) none
                  with he | he
              · rw [he] at hfp
                cases hfp
                exact Finset.mem_insert_self _ _
              · rw [he] at hfp
                exact Finset.mem_insert_of_mem (h2 ti s hfp)
            · intro q r hn
              dsimp only at hn
              rcases getD_set_elim tv.next_partition p q
                  (tpa_first_partition tv y) none with he | he
              · rw [he] at hn
                exact Finset.mem_insert_of_mem (h2 y r hn)
              · rw [he] at hn
                exact Finset.mem_insert_of_mem (h3 q r hn)

/-- C8.  A partition whose representative is volatile, a parameter, a
function result, a register declaration, a declaration with a
non-ignored name, or a declaration with assigned storage appears in
no class of the TPA built by `type_var_init` (on a map whose
representative lookup is consistent with `var_to_partition`). -/
theorem type_var_init_excludes (m : VarMap) (tv : Tpa)
    (h : type_var_init m = some tv)
    (hwf : ∀ x t, partition_to_var m x = some t →
      ∀ p, var_to_partition m t = some p → partition_to_var m p = some t)
    (p : Nat) (t : Tree) (hrep : partition_to_var m p = some t)
    (hdis : type_var_disallowed t = true) (ti : Nat) :
    p ∉ tpa_class_members tv ti := by
  intro hmem
  simp only [type_var_init] at h
  rcases h0 : tpa_init m with _ | tv0
  all_goals rw [h0] at h
  all_goals dsimp only at h
  · exact absurd h (by simp)
  · rcases hf : opt_fold (type_var_step m) (tv0, ∅)
        (List.range (num_var_partitions m)).reverse with _ | s
    all_goals rw [hf] at h
    all_goals dsimp only at h
    · exact absurd h (by simp)
    · obtain ⟨tv1, seen⟩ := s
      simp only [Option.some.injEq] at h
      subst h
      have hinv0 : tpa_inv m (tv0, (∅ : Finset Nat)) := by
        simp only [tpa_init] at h0
        split at h0
        · exact absurd h0 (by simp)
        · simp only [Option.some.injEq] at h0
          subst h0
          refine ⟨fun q hq => absurd hq (Finset.not_mem_empty q), ?_, ?_⟩
          · intro ti' s hfp
            unfold tpa_first_partition at hfp
            simp at hfp
          · intro q r hn
            dsimp only at hn
            rw [getD_replicate_none] at hn
            cases hn
      have hinv := opt_fold_inv (type_var_step m) (tpa_inv m)
        (type_var_step_inv m) (List.range (num_var_partitions m)).reverse
        (tv0, ∅) (tv1, seen) hinv0 hf
      obtain ⟨i1, i2, i3⟩ := hinv
      have hpseen : p ∈ seen := by
        unfold tpa_class_members at hmem
        rcases tpa_chase_mem tv1.next_partition
            tv1.next_partition.length (tpa_first_partition tv1 ti) p hmem
          with hc | ⟨r, hc⟩
        · exact i2 ti p hc
        · exact i3 r p hc
      obtain ⟨x, t', hx, hdall, hvp⟩ := i1 p hpseen
      have := hwf x t' hx p hvp
      rw [hrep] at this
      cases this
      rw [hdis] at hdall
      cases hdall

/-- Witness for `type_var_init_excludes`: over `c8Map`, partition 0
(represented by the parameter `c8P`) is absent from the single class
of the TPA. -/
theorem type_var_init_excludes_witness :
    (0 : Nat) ∉ tpa_class_members c8Tv 0 := by
  refine type_var_init_excludes c8Map c8Tv rfl ?_ 0 c8P rfl rfl 0
  intro x t hx p hp
  match x with
  | 0 =>
      cases hx
      cases hp
      rfl
  | 1 =>
      cases hx
      cases hp
      rfl
  | 2 =>
      cases hx
      cases hp
      rfl
  | n + 3 =>
      exact absurd hx (by
        simp only [partition_to_var, partition_find, c8Map]
        simp)

/-! ### The coalescer unions only interference-free partitions -/

theorem evs_ok_nil : evs_ok [] := by
  intro ev hev
  exact absurd hev (List.not_mem_nil _)

theorem evs_ok_cons_false (g : ConflictGraph) (p1 p2 : Nat)
    (evs : List CoalesceEvent) (h : evs_ok evs) :
    evs_ok (⟨g, p1, p2, false⟩ :: evs) := by
  intro ev hev hdid
  rcases List.mem_cons.mp hev with rfl | hev'
  · cases hdid
  · exact h ev hev' hdid

theorem evs_ok_cons_true (g : ConflictGraph) (p1 p2 : Nat)
    (hc : conflict_graph_conflict_p g p1 p2 = false)
    (evs : List CoalesceEvent) (h : evs_ok evs) :
    evs_ok (⟨g, p1, p2, true⟩ :: evs) := by
  intro ev hev hdid
  rcases List.mem_cons.mp hev with rfl | hev'
  · exact hc
  · exact h ev hev' hdid

theorem evs_ok_append (a b : List CoalesceEvent) (ha : evs_ok a)
    (hb : evs_ok b) : evs_ok (a ++ b) := by
  intro ev hev hdid
  rcases List.mem_append.mp hev with h | h
  · exact ha ev h hdid
  · exact hb ev h hdid

theorem coalesce_cl_loop_sound :
    ∀ (fuel : Nat) (tp : Tpa) (g : ConflictGraph) (m : VarMap)
      (cl : CoalesceList) (st : CoalesceState) (evs : List CoalesceEvent),
    coalesce_cl_loop fuel tp g m cl = some (st, evs) → evs_ok evs := by
  intro fuel
  induction fuel with
  | zero =>
      intro tp g m cl st evs h
      exact absurd h (by simp [coalesce_cl_loop])
  | succ k ih =>
      intro tp g m cl st evs h
      simp only [coalesce_cl_loop] at h
      split at h
      · exact absurd h (by simp)
      · simp only [Option.some.injEq, Prod.mk.injEq] at h
        rw [← h.2]
        exact evs_ok_nil
      · split at h
        · split at h
          · exact ih _ _ _ _ _ _ h
          · split at h
            · split at h
              · split at h
                · exact ih _ _ _ _ _ _ h
                · split at h
                  · split at h
                    · exact absurd h (by simp)
                    · rename_i hrec
                      simp only [Option.some.injEq, Prod.mk.injEq] at h
                      rw [← h.2]
                      exact evs_ok_cons_false _ _ _ _ (ih _ _ _ _ _ _ hrec)
                  · rename_i hconf
                    rw [Bool.not_eq_true] at hconf
                    split at h
                    · exact absurd h (by simp)
                    · split at h
                      · exact absurd h (by simp)
                      · rename_i hrec
                        simp only [Option.some.injEq, Prod.mk.injEq] at h
                        rw [← h.2]
                        exact evs_ok_cons_false _ _ _ _ (ih _ _ _ _ _ _ hrec)
                    · split at h
                      · exact absurd h (by simp)
                      · split at h
                        · exact absurd h (by simp)
                        · rename_i hrec
                          simp only [Option.some.injEq, Prod.mk.injEq] at h
                          rw [← h.2]
                          exact evs_ok_cons_true _ _ _ hconf _
                            (ih _ _ _ _ _ _ hrec)
              · exact absurd h (by simp)
            · exact absurd h (by simp)
        · exact ih _ _ _ _ _ _ h

theorem coalesce_z_loop_sound (x y : Nat) :
    ∀ (fuel : Nat) (tp : Tpa) (g : ConflictGraph) (m : VarMap)
      (var : Tree) (p1 : Nat) (z : Option Nat) (st : CoalesceState)
      (evs : List CoalesceEvent),
    coalesce_z_loop x y fuel tp g m var p1 z = some (st, evs) →
    evs_ok evs := by
  intro fuel
  induction fuel with
  | zero =>
      intro tp g m var p1 z st evs h
      rcases z with _ | z
      · simp only [coalesce_z_loop, Option.some.injEq,
          Prod.mk.injEq] at h
        rw [← h.2]
        exact evs_ok_nil
      · exact absurd h (by simp [coalesce_z_loop])
  | succ k ih =>
      intro tp g m var p1 z st evs h
      rcases z with _ | z
      · simp only [coalesce_z_loop, Option.some.injEq,
          Prod.mk.injEq] at h
        rw [← h.2]
        exact evs_ok_nil
      · simp only [coalesce_z_loop] at h
        split at h
        · exact absurd h (by simp)
        · split at h
          · exact absurd h (by simp)
          · split at h
            · exact ih _ _ _ _ _ _ _ _ h
            · split at h
              · split at h
                · exact absurd h (by simp)
                · rename_i hrec
                  simp only [Option.some.injEq, Prod.mk.injEq] at h
                  rw [← h.2]
                  exact evs_ok_cons_false _ _ _ _ (ih _ _ _ _ _ _ _ _ hrec)
              · rename_i hconf
                rw [Bool.not_eq_true] at hconf
                split at h
                · split at h
                  · exact absurd h (by simp)
                  · split at h
                    · exact absurd h (by simp)
                    · rename_i hrec
                      simp only [Option.some.injEq, Prod.mk.injEq] at h
                      rw [← h.2]
                      exact evs_ok_cons_false _ _ _ _
                        (ih _ _ _ _ _ _ _ _ hrec)
                  · split at h
                    · exact absurd h (by simp)
                    · split at h
                      · exact absurd h (by simp)
                      · rename_i hrec
                        simp only [Option.some.injEq, Prod.mk.injEq] at h
                        rw [← h.2]
                        exact evs_ok_cons_true _ _ _ hconf _
                          (ih _ _ _ _ _ _ _ _ hrec)
                · split at h
                  · exact absurd h (by simp)
                  · rename_i hrec
                    simp only [Option.some.injEq, Prod.mk.injEq] at h
                    rw [← h.2]
                    exact evs_ok_cons_false _ _ _ _
                      (ih _ _ _ _ _ _ _ _ hrec)

theorem coalesce_while_loop_sound (x : Nat) :
    ∀ (fuel : Nat) (tp : Tpa) (g : ConflictGraph) (m : VarMap)
      (st : CoalesceState) (evs : List CoalesceEvent),
    coalesce_while_loop x fuel tp g m = some (st, evs) → evs_ok evs := by
  intro fuel
  induction fuel with
  | zero =>
      intro tp g m st evs h
      simp only [coalesce_while_loop] at h
      split at h
      · simp only [Option.some.injEq, Prod.mk.injEq] at h
        rw [← h.2]
        exact evs_ok_nil
      · exact absurd h (by simp)
  | succ k ih =>
      intro tp g m st evs h
      simp only [coalesce_while_loop] at h
      split at h
      · simp only [Option.some.injEq, Prod.mk.injEq] at h
        rw [← h.2]
        exact evs_ok_nil
      · split at h
        · exact absurd h (by simp)
        · split at h
          · exact absurd h (by simp)
          · split at h
            · exact absurd h (by simp)
            · rename_i hz
              split at h
              · exact absurd h (by simp)
              · rename_i hrec
                simp only [Option.some.injEq, Prod.mk.injEq] at h
                rw [← h.2]
                exact evs_ok_append _ _
                  (coalesce_z_loop_sound _ _ _ _ _ _ _ _ _ _ _ hz)
                  (ih _ _ _ _ _ hrec)

theorem coalesce_tree_loop_sound :
    ∀ (xs : List Nat) (tp : Tpa) (g : ConflictGraph) (m : VarMap)
      (st : CoalesceState) (evs : List CoalesceEvent),
    coalesce_tree_loop xs tp g m = some (st, evs) → evs_ok evs := by
  intro xs
  induction xs with
  | nil =>
      intro tp g m st evs h
      simp only [coalesce_tree_loop, Option.some.injEq,
        Prod.mk.injEq] at h
      rw [← h.2]
      exact evs_ok_nil
  | cons x rest ih =>
      intro tp g m st evs h
      simp only [coalesce_tree_loop] at h
      split at h
      · exact absurd h (by simp)
      · rename_i hw
        split at h
        · exact absurd h (by simp)
        · rename_i hrec
          simp only [Option.some.injEq, Prod.mk.injEq] at h
          rw [← h.2]
          exact evs_ok_append _ _
            (coalesce_while_loop_sound _ _ _ _ _ _ _ hw)
            (ih _ _ _ _ _ hrec)

/-- C1.  Every union the coalescer performs — with or without a coalesce
list — is between partitions the conflict graph, as it stands at that
moment, reports as non-interfering: each performed event in the trace
of `coalesce_tpa_members` records an interference test that returned
false. -/
theorem coalesce_union_no_conflict (tp : Tpa) (g : ConflictGraph)
    (m : VarMap) (cl : Option CoalesceList) (st : CoalesceState)
    (evs : List CoalesceEvent)
    (h : coalesce_tpa_members tp g m cl = some (st, evs))
    (ev : CoalesceEvent) (hev : ev ∈ evs) (hdid : ev.did = true) :
    conflict_graph_conflict_p ev.graph ev.p1 ev.p2 = false := by
  rcases cl with _ | cl
  · exact coalesce_tree_loop_sound _ _ _ _ _ _ h ev hev hdid
  · exact coalesce_cl_loop_sound _ _ _ _ _ _ _ h ev hev hdid

/-- Witness for `coalesce_union_no_conflict`: on the two-partition
example, the coalescer performs the listed union of partitions 0 and
1, and the empty graph reports them non-interfering. -/
theorem coalesce_union_no_conflict_witness :
    conflict_graph_conflict_p c1G 0 1 = false :=
  coalesce_union_no_conflict c1Tpa c1G c1Map (some c1Cl) c1Res.1 c1Res.2
    rfl ⟨c1G, 0, 1, true⟩ (by decide) rfl

end TreeSSALive

